import Mathlib

/-!
Verification of the segmented streaming-AEAD core described in the
repository's specification.  The streaming implementation itself
(`decrypting_input_stream.cc`, `decrypting_random_access_stream.cc`,
`streaming_aead_wrapper.cc`, ...) is referenced from the build files but its
source is not part of the provided tree, so the framing scheme, the
sequential decrypting stream and the random-access decrypting stream are
modelled from the specification's words, with an ideal (injective-tag)
segment cipher standing in for the external AEAD collaborator.  The
`EncryptThenDecrypt` helper is embedded directly from
`cc/subtle/streaming_aead_test_util` source.

Bytes are modelled as natural numbers; bit flips are modelled by `xor` with a
power of two on one list element.
-/

namespace TinkStream

/-- Error taxonomy of the decrypt path (specification section 7). -/
inductive StreamError where
  | malformedHeader
  | noMatchingKey
  | authenticationFailed
  | truncatedStream
  | sourceError
deriving DecidableEq

/-- Split a list into chunks of `cs` bytes; `fuel` bounds the recursion and is
always instantiated with the length of the list. -/
def chunksAux (cs : Nat) : Nat → List Nat → List (List Nat)
  | _, [] => []
  | 0, _ => []
  | fuel + 1, l => l.take cs :: chunksAux cs fuel (l.drop cs)

/-- Split a list into chunks of `cs` bytes; the final chunk may be shorter. -/
def chunks (cs : Nat) (l : List Nat) : List (List Nat) :=
  chunksAux cs l.length l

/-- Modelled from the spec: segmentation with a reduced first segment —
a first chunk of `c0` bytes followed by chunks of `cs` bytes (spec section 3,
"Segment": the first segment is reduced by the header length). -/
def splitFirst (c0 cs : Nat) (l : List Nat) : List (List Nat) :=
  l.take c0 :: chunks cs (l.drop c0)

/-- Modelled from the spec: the plaintext segments of a stream with plaintext
segment size `ps` and header length `h` (spec sections 3 and 6). -/
def ptSegments (ps h : Nat) (p : List Nat) : List (List Nat) :=
  splitFirst (ps - h) ps p

/-- Flip bit `j` of the byte at index `i` (used to state tamper sensitivity). -/
def flipAt (l : List Nat) (i j : Nat) : List Nat :=
  l.set i ((l.getD i 0) ^^^ 2 ^ j)

/-- Injective encoding of a byte list into a natural number; the building
block of the ideal segment cipher's authentication tag. -/
def encodeList : List Nat → Nat
  | [] => 0
  | x :: xs => Nat.pair x (encodeList xs) + 1

/-- Modelled from the spec: HKDF-like derivation of the per-stream segment
key from the key material, the header salt and the associated data (spec
sections 2 and 4.1: `derive_context` is pure and deterministic).  Missing
source: the SegmentCipher adapter.  Idealised as an injective function. -/
def deriveKey (ikm : Nat) (salt aad : List Nat) : Nat :=
  encodeList [ikm, encodeList salt, encodeList aad]

/-- Modelled from the spec: the ideal authentication tag of one segment,
binding the derived key, the stream nonce prefix, the segment number, the
last-segment flag and the segment plaintext (spec section 4.1: the nonce is
built from the nonce prefix, the segment counter and the last flag, and the
authentication binds header and segment number).  Missing source: the
SegmentCipher primitive.  Idealised as an injective function. -/
def segTag (dk : Nat) (np : List Nat) (n : Nat) (isLast : Bool) (pt : List Nat) : Nat :=
  encodeList [dk, encodeList np, n, cond isLast 1 0, encodeList pt]

/-- Modelled from the spec: `encrypt_segment` of the ideal segment cipher;
ciphertext is the plaintext followed by the authentication tag, so the fixed
authentication overhead is one element (spec sections 2 and 4.4). -/
def encryptSegment (dk : Nat) (np : List Nat) (n : Nat) (isLast : Bool)
    (pt : List Nat) : List Nat :=
  pt ++ [segTag dk np n isLast pt]

/-- Modelled from the spec: `decrypt_segment`; verifies the trailing tag and
releases the plaintext only on success (spec section 4.1: fails on tag
mismatch). -/
def decryptSegment (dk : Nat) (np : List Nat) (n : Nat) (isLast : Bool)
    (c : List Nat) : Option (List Nat) :=
  c.getLast?.bind fun tag =>
    if tag = segTag dk np n isLast c.dropLast then some c.dropLast else none

/-- Modelled from the spec: the parsed stream header (spec section 3). -/
structure StreamHeader where
  salt : List Nat
  nonceP : List Nat
deriving DecidableEq

/-- Header length for the given salt and nonce-prefix sizes: one length byte
followed by the salt and the nonce prefix (spec sections 3 and 6). -/
def headerLen (saltSize pfxSize : Nat) : Nat := 1 + saltSize + pfxSize

/-- Modelled from the spec: `write_header` — the fixed-format header bytes:
the declared header length, then salt, then nonce prefix (spec section 6). -/
def mkHeader (salt np : List Nat) : List Nat :=
  headerLen salt.length np.length :: (salt ++ np)

/-- Modelled from the spec: `try_read_header`; fails (`MalformedHeader`) when
fewer than `header_length` bytes are available or the declared length byte is
inconsistent with the cipher configuration (spec section 4.1). -/
def parseHeader (saltSize pfxSize : Nat) (ct : List Nat) :
    Option (StreamHeader × List Nat) :=
  match ct with
  | [] => none
  | b :: rest =>
    if b = headerLen saltSize pfxSize ∧ saltSize + pfxSize ≤ rest.length then
      some (⟨rest.take saltSize, (rest.drop saltSize).take pfxSize⟩,
            rest.drop (saltSize + pfxSize))
    else none

/-- Modelled from the spec: encrypt a list of plaintext segments with
increasing segment numbers; exactly the final segment carries the last flag
(spec section 4.3). -/
def encSegs (dk : Nat) (np : List Nat) (n : Nat) : List (List Nat) → List (List Nat)
  | [] => []
  | [s] => [encryptSegment dk np n true s]
  | s :: s' :: rest => encryptSegment dk np n false s :: encSegs dk np (n + 1) (s' :: rest)

/-- Modelled from the spec: the whole-stream encryption path of the wrapper:
header, then every segment encrypted in order with the key derived from the
primary key material, the salt and the associated data (spec section 2,
data flow). -/
def encryptStream (key : Nat) (salt np aad : List Nat) (ps : Nat)
    (p : List Nat) : List Nat :=
  mkHeader salt np ++
    (encSegs (deriveKey key salt aad) np 0
      (ptSegments ps (headerLen salt.length np.length) p)).flatten

/-- Modelled from the spec: sequentially decrypt a list of ciphertext
segments with the pinned key; a last segment too short to hold a tag is a
truncated stream, a tag mismatch is an authentication failure (spec
sections 4.2, 4.3 and 7). -/
def decSegs (dk : Nat) (np : List Nat) (n : Nat) :
    List (List Nat) → Except StreamError (List (List Nat))
  | [] => .ok []
  | [c] =>
    if c.isEmpty then .error .truncatedStream
    else
      match decryptSegment dk np n true c with
      | some pt => .ok [pt]
      | none => .error .authenticationFailed
  | c :: c' :: rest =>
    match decryptSegment dk np n false c with
    | some pt =>
      match decSegs dk np (n + 1) (c' :: rest) with
      | .ok pts => .ok (pt :: pts)
      | .error e => .error e
    | none => .error .authenticationFailed

/-- Modelled from the spec: trial decryption — candidate keys are tried in
insertion order against the first segment and the first success is pinned
(spec sections 4.3 and 9). -/
def findKey (aad salt np : List Nat) (isLast0 : Bool) (c0 : List Nat) :
    List Nat → Option Nat
  | [] => none
  | k :: ks =>
    if (decryptSegment (deriveKey k salt aad) np 0 isLast0 c0).isSome then some k
    else findKey aad salt np isLast0 c0 ks

/-- Modelled from the spec: the sequential decrypting stream (spec
section 4.3): read the header, pin a key by trial decryption of the first
segment, then decrypt every segment in order with the pinned key. -/
def decryptStream (keys : List Nat) (aad : List Nat) (saltSize pfxSize ps : Nat)
    (ct : List Nat) : Except StreamError (List Nat) :=
  match parseHeader saltSize pfxSize ct with
  | none => .error .malformedHeader
  | some (hdr, body) =>
    match splitFirst (ps + 1 - headerLen saltSize pfxSize) (ps + 1) body with
    | [] => .error .truncatedStream
    | c0 :: rest =>
      match findKey aad hdr.salt hdr.nonceP rest.isEmpty c0 keys with
      | none => .error .noMatchingKey
      | some k =>
        match decSegs (deriveKey k hdr.salt aad) hdr.nonceP 0 (c0 :: rest) with
        | .ok segs => .ok segs.flatten
        | .error e => .error e

/-- Modelled from the spec: the stream position of an absolute plaintext
offset — segment number and offset within the segment, with segment 0's
reduction by the header length accounted for by the shift `h` (spec
sections 3 and 4.4). -/
def streamPosition (ps h : Nat) (offset : Nat) : Nat × Nat :=
  ((offset + h) / ps, (offset + h) % ps)

/-- Absolute plaintext offset at which segment `n` starts (0 for segment 0
because its size is reduced by the header length). -/
def ptSegStart (ps h n : Nat) : Nat := n * ps - h

/-- Modelled from the spec: number of segments of a ciphertext of `ctLen`
bytes; ciphertext segment size is `ps + 1` (plaintext segment size plus the
fixed tag overhead) and the header shares segment 0's slot, so this is the
ceiling of `ctLen / (ps + 1)` (spec sections 4.4 and 6). -/
def numSegments (ps ctLen : Nat) : Nat := (ctLen + ps) / (ps + 1)

/-- Ciphertext byte offset at which segment `n` starts: segment 0 starts
right after the header, segment `n` at `n * (ps + 1)` (spec section 4.4:
header length offsets segment 0). -/
def segCtStart (ps h n : Nat) : Nat := if n = 0 then h else n * (ps + 1)

/-- Modelled from the spec: read the exact ciphertext byte range of segment
`n` from the random-access source (spec section 4.4, segment retrieval). -/
def getCtSegment (ps h : Nat) (ct : List Nat) (n : Nat) : List Nat :=
  (ct.drop (segCtStart ps h n)).take
    (min ((n + 1) * (ps + 1)) ct.length - segCtStart ps h n)

/-- Modelled from the spec: decrypt one segment for the random-access
stream; `is_last` is determined by comparing against the total source length
(spec section 4.4). -/
def raDecryptSegment (dk : Nat) (np : List Nat) (ps h : Nat) (ct : List Nat)
    (n : Nat) : Except StreamError (List Nat) :=
  let c := getCtSegment ps h ct n
  if c.isEmpty then .error .truncatedStream
  else
    match decryptSegment dk np n (decide (n + 1 = numSegments ps ct.length)) c with
    | some pt => .ok pt
    | none => .error .authenticationFailed

/-- Modelled from the spec: decrypt `cnt` consecutive segments starting at
segment `n` and concatenate the verified plaintexts. -/
def raReadSegments (dk : Nat) (np : List Nat) (ps h : Nat) (ct : List Nat) :
    Nat → Nat → Except StreamError (List Nat)
  | _, 0 => .ok []
  | n, cnt + 1 =>
    match raDecryptSegment dk np ps h ct n with
    | .error e => .error e
    | .ok pt =>
      match raReadSegments dk np ps h ct (n + 1) cnt with
      | .error e => .error e
      | .ok rest => .ok (pt ++ rest)

/-- Modelled from the spec: the random-access decrypting stream's `PRead`
(spec section 4.4): parse the header, pin a key by trial decryption of
segment 0, clamp the request to the plaintext length (requests past
end-of-stream return a short or empty result, not an error), locate the
covering segments from the stream position, decrypt exactly those and slice
out the requested range. -/
def pRead (keys : List Nat) (aad : List Nat) (saltSize pfxSize ps : Nat)
    (ct : List Nat) (offset len : Nat) : Except StreamError (List Nat) :=
  match parseHeader saltSize pfxSize ct with
  | none => .error .malformedHeader
  | some (hdr, _body) =>
    let h := headerLen saltSize pfxSize
    let nSegs := numSegments ps ct.length
    match findKey aad hdr.salt hdr.nonceP (decide (1 = nSegs))
        (getCtSegment ps h ct 0) keys with
    | none => .error .noMatchingKey
    | some k =>
      let dk := deriveKey k hdr.salt aad
      let ptLen := ct.length - h - nSegs
      if ptLen ≤ offset then .ok []
      else
        let len2 := min len (ptLen - offset)
        if len2 = 0 then .ok []
        else
          let n0 := (streamPosition ps h offset).1
          let n1 := (streamPosition ps h (offset + len2 - 1)).1
          match raReadSegments dk hdr.nonceP ps h ct n0 (n1 + 1 - n0) with
          | .error e => .error e
          | .ok buf => .ok ((buf.drop (offset - ptSegStart ps h n0)).take len2)

/-- Modelled from the spec: the state of a sequential decrypting stream
instance — either producing the remaining verified plaintext or failed with
a terminal error (spec sections 4.3 and 7, propagation policy). -/
inductive SeqState where
  | producing (rest : List Nat)
  | failed (e : StreamError)
deriving DecidableEq

/-- Modelled from the spec: open a sequential decrypting stream over a
ciphertext; a decrypt-path error puts the instance into the terminal failed
state. -/
def initSeqStream (keys aad : List Nat) (saltSize pfxSize ps : Nat)
    (ct : List Nat) : SeqState :=
  match decryptStream keys aad saltSize pfxSize ps ct with
  | .ok p => .producing p
  | .error e => .failed e

/-- Modelled from the spec: one read call on the sequential stream; a failed
instance deterministically re-reports the same error and never recovers
(spec section 7). -/
def readSeq : SeqState → Nat → Except StreamError (List Nat) × SeqState
  | .producing rest, n => (.ok (rest.take n), .producing (rest.drop n))
  | .failed e, _ => (.error e, .failed e)

/-- Segment-list shape of a stream: first element bounded (and, when not
last, exactly sized) by `c0`, later elements by `cs`. -/
inductive Segmented (cs : Nat) : Nat → List (List Nat) → Prop where
  | last (c0 : Nat) (s : List Nat) : s.length ≤ c0 → Segmented cs c0 [s]
  | cons (c0 : Nat) (s s' : List Nat) (t : List (List Nat)) :
      s.length = c0 → Segmented cs cs (s' :: t) → Segmented cs c0 (s :: s' :: t)

/-- Error-code model of the C++ `util::error` space used by the helper. -/
inductive ErrorCode where
  | internal
  | invalidArgument
  | unknown
deriving DecidableEq

/-- Model of `crypto::tink::util::Status`: OK or an error code with a
message. -/
inductive Status where
  | okStatus
  | errStatus (code : ErrorCode) (message : String)
deriving DecidableEq

/-- An AEAD primitive as consumed by the helper: `Encrypt` and `Decrypt`
returning a value or a (non-OK) status. -/
structure Aead where
  encrypt : List Nat → List Nat → Except Status (List Nat)
  decrypt : List Nat → List Nat → Except Status (List Nat)

/-- Embedded from `cc/subtle/streaming_aead_test_util`: encrypt, propagate a
failure status unchanged, decrypt, propagate a failure status unchanged,
then compare with the message; a mismatch is an INTERNAL error. -/
def EncryptThenDecrypt (enc dec : Aead) (message aad : List Nat) : Status :=
  match enc.encrypt message aad with
  | .error s => s
  | .ok ciphertext =>
    match dec.decrypt ciphertext aad with
    | .error s => s
    | .ok plaintext =>
      if plaintext = message then .okStatus
      else .errStatus .internal "Message/Decryption mismatch"

/-- The identity AEAD: a trivial concrete primitive used to evaluate the
helper on concrete inputs. -/
def idAead : Aead where
  encrypt := fun m _ => .ok m
  decrypt := fun c _ => .ok c

/-- An AEAD whose decryption always mangles the message, used to exercise the
mismatch branch of the helper on concrete inputs. -/
def badAead : Aead where
  encrypt := fun m _ => .ok m
  decrypt := fun c _ => .ok (0 :: c)

/-- Decidable equality on `Except`, used to evaluate the model on concrete
inputs. -/
instance {ε α : Type} [DecidableEq ε] [DecidableEq α] : DecidableEq (Except ε α) :=
  fun a b =>
    match a, b with
    | .ok x, .ok y =>
      if h : x = y then .isTrue (by rw [h])
      else .isFalse (by intro hc; cases hc; exact h rfl)
    | .error x, .error y =>
      if h : x = y then .isTrue (by rw [h])
      else .isFalse (by intro hc; cases hc; exact h rfl)
    | .ok _, .error _ => .isFalse (by intro hc; cases hc)
    | .error _, .ok _ => .isFalse (by intro hc; cases hc)

/-! ### Chunking lemmas -/

theorem chunksAux_congr (cs : Nat) (hcs : 0 < cs) :
    ∀ (f1 f2 : Nat) (l : List Nat), l.length ≤ f1 → l.length ≤ f2 →
      chunksAux cs f1 l = chunksAux cs f2 l := by
  intro f1
  induction f1 with
  | zero =>
    intro f2 l h1 _
    have hl : l = [] := List.eq_nil_of_length_eq_zero (Nat.le_zero.mp h1)
    subst hl
    cases f2 <;> simp [chunksAux]
  | succ f ih =>
    intro f2 l h1 h2
    cases l with
    | nil => cases f2 <;> simp [chunksAux]
    | cons a as =>
      cases f2 with
      | zero => simp at h2
      | succ g =>
        simp only [chunksAux]
        refine congrArg _ (ih g _ ?_ ?_) <;>
          simp only [List.length_drop, List.length_cons] at * <;> omega

theorem chunks_nil (cs : Nat) : chunks cs [] = [] := rfl

theorem chunks_cons_eq (cs : Nat) (hcs : 0 < cs) (l : List Nat) (hl : l ≠ []) :
    chunks cs l = l.take cs :: chunks cs (l.drop cs) := by
  obtain ⟨a, as, rfl⟩ := List.exists_cons_of_ne_nil hl
  show chunksAux cs (as.length + 1) (a :: as) = _
  simp only [chunksAux]
  refine congrArg _ (chunksAux_congr cs hcs _ _ _ ?_ ?_) <;>
    simp only [List.length_drop, List.length_cons] <;> omega

theorem chunks_eq_nil_iff (cs : Nat) (hcs : 0 < cs) (l : List Nat) :
    chunks cs l = [] ↔ l = [] := by
  constructor
  · intro h
    by_contra hl
    rw [chunks_cons_eq cs hcs l hl] at h
    exact List.cons_ne_nil _ _ h
  · intro h; subst h; rfl

theorem chunks_singleton (cs : Nat) (hcs : 0 < cs) (l : List Nat)
    (hl : l ≠ []) (hle : l.length ≤ cs) : chunks cs l = [l] := by
  rw [chunks_cons_eq cs hcs l hl, List.take_of_length_le hle,
    List.drop_eq_nil_of_le hle, chunks_nil]

theorem chunks_append_full (cs : Nat) (hcs : 0 < cs) (a r : List Nat)
    (ha : a.length = cs) : chunks cs (a ++ r) = a :: chunks cs r := by
  have hne : a ++ r ≠ [] := by
    intro h
    have := congrArg List.length h
    simp [ha] at this
    omega
  rw [chunks_cons_eq cs hcs _ hne, List.take_left' ha, List.drop_left' ha]

theorem flatten_chunks (cs : Nat) (hcs : 0 < cs) (l : List Nat) :
    (chunks cs l).flatten = l := by
  have H : ∀ (fuel : Nat) (l : List Nat), l.length ≤ fuel →
      (chunksAux cs fuel l).flatten = l := by
    intro fuel
    induction fuel with
    | zero =>
      intro l h1
      have hl : l = [] := List.eq_nil_of_length_eq_zero (Nat.le_zero.mp h1)
      subst hl; rfl
    | succ f ih =>
      intro l h1
      cases l with
      | nil => rfl
      | cons a as =>
        simp only [chunksAux, List.flatten_cons]
        rw [ih _ (by simp only [List.length_drop, List.length_cons] at *; omega)]
        exact List.take_append_drop cs (a :: as)
  exact H _ l le_rfl

theorem chunks_drop_flatten (cs : Nat) (hcs : 0 < cs) :
    ∀ (n : Nat) (l : List Nat), ((chunks cs l).drop n).flatten = l.drop (n * cs) := by
  intro n
  induction n with
  | zero => intro l; simpa using flatten_chunks cs hcs l
  | succ m ih =>
    intro l
    by_cases hl : l = []
    · subst hl; simp [chunks_nil]
    · rw [chunks_cons_eq cs hcs l hl]
      show ((chunks cs (l.drop cs)).drop m).flatten = _
      rw [ih (l.drop cs), List.drop_drop]
      congr 1
      ring

theorem chunks_getD (cs : Nat) (hcs : 0 < cs) :
    ∀ (n : Nat) (l : List Nat), (chunks cs l).getD n [] = (l.drop (n * cs)).take cs := by
  intro n
  induction n with
  | zero =>
    intro l
    by_cases hl : l = []
    · subst hl; simp [chunks_nil]
    · rw [chunks_cons_eq cs hcs l hl]; simp
  | succ m ih =>
    intro l
    by_cases hl : l = []
    · subst hl; simp [chunks_nil]
    · rw [chunks_cons_eq cs hcs l hl]
      show (chunks cs (l.drop cs)).getD m [] = _
      rw [ih (l.drop cs), List.drop_drop]
      congr 2
      ring

theorem chunks_segmented (cs : Nat) (hcs : 0 < cs) (l : List Nat) (hl : l ≠ []) :
    Segmented cs cs (chunks cs l) := by
  have H : ∀ (fuel : Nat) (l : List Nat), l ≠ [] → l.length ≤ fuel →
      Segmented cs cs (chunksAux cs fuel l) := by
    intro fuel
    induction fuel with
    | zero =>
      intro l hne h1
      exact absurd (List.eq_nil_of_length_eq_zero (Nat.le_zero.mp h1)) hne
    | succ f ih =>
      intro l hne h1
      obtain ⟨a, as, rfl⟩ := List.exists_cons_of_ne_nil hne
      simp only [chunksAux]
      by_cases hd : (a :: as).drop cs = []
      · rw [hd]
        have h2 : chunksAux cs f ([] : List Nat) = [] := by cases f <;> rfl
        rw [h2]
        refine Segmented.last _ _ ?_
        simp only [List.length_take, List.length_cons]
        omega
      · have hlen : cs < (a :: as).length := by
          by_contra hc
          exact hd (List.drop_eq_nil_of_le (by omega))
        have h2 : chunksAux cs f ((a :: as).drop cs) =
            chunks cs ((a :: as).drop cs) := by
          refine chunksAux_congr cs hcs _ _ _ ?_ le_rfl
          simp only [List.length_drop, List.length_cons] at h1 ⊢
          omega
        rw [h2]
        have htail : Segmented cs cs (chunks cs ((a :: as).drop cs)) := by
          rw [← h2]
          refine ih _ hd ?_
          simp only [List.length_drop, List.length_cons] at h1 ⊢
          omega
        have hne2 : chunks cs ((a :: as).drop cs) ≠ [] := by
          rw [Ne, chunks_eq_nil_iff cs hcs]
          exact hd
        obtain ⟨x, xs, hx⟩ := List.exists_cons_of_ne_nil hne2
        rw [hx] at htail ⊢
        refine Segmented.cons _ _ _ _ ?_ htail
        simp only [List.length_cons] at hlen
        simp only [List.length_take, List.length_cons]
        omega
  rw [chunks]
  exact H _ l hl le_rfl

/-! ### Bit-flip lemmas -/

theorem length_flipAt (l : List Nat) (i j : Nat) : (flipAt l i j).length = l.length := by
  simp [flipAt]

theorem flipAt_ne (l : List Nat) (i j : Nat) (h : i < l.length) : flipAt l i j ≠ l := by
  intro hc
  have hget : l[i]? = some (l.get ⟨i, h⟩) := by
    rw [List.getElem?_eq_getElem h]
    exact congrArg some (List.get_eq_getElem l ⟨i, h⟩).symm
  have h1 : (flipAt l i j)[i]? = l[i]? := by rw [hc]
  rw [flipAt, List.getElem?_set_self h, hget] at h1
  injection h1 with h1'
  have h2 : l.getD i 0 = l.get ⟨i, h⟩ := by
    rw [List.getD_eq_getElem l 0 h]
    exact (List.get_eq_getElem l ⟨i, h⟩).symm
  rw [h2] at h1'
  have h4 := congrArg (fun x => l.get ⟨i, h⟩ ^^^ x) h1'
  simp only [← Nat.xor_assoc, Nat.xor_self, Nat.zero_xor] at h4
  have := Nat.two_pow_pos j
  omega

theorem flipAt_append_left (a b : List Nat) (i j : Nat) (h : i < a.length) :
    flipAt (a ++ b) i j = flipAt a i j ++ b := by
  rw [flipAt, flipAt, List.getD_eq_getElem?_getD, List.getD_eq_getElem?_getD,
    List.getElem?_append_left h, List.set_append_left _ _ h]

theorem flipAt_append_right (a b : List Nat) (i j : Nat) (h : a.length ≤ i) :
    flipAt (a ++ b) i j = a ++ flipAt b (i - a.length) j := by
  rw [flipAt, flipAt, List.getD_eq_getElem?_getD, List.getD_eq_getElem?_getD,
    List.getElem?_append_right h, List.set_append_right _ _ h]

theorem flipAt_cons_zero (a : Nat) (l : List Nat) (j : Nat) :
    flipAt (a :: l) 0 j = (a ^^^ 2 ^ j) :: l := rfl

theorem flipAt_cons_succ (a : Nat) (l : List Nat) (i j : Nat) :
    flipAt (a :: l) (i + 1) j = a :: flipAt l i j := rfl

/-! ### Injectivity of the ideal cipher -/

theorem encodeList_injective : Function.Injective encodeList := by
  intro x
  induction x with
  | nil =>
    intro y h
    cases y with
    | nil => rfl
    | cons b bs => simp [encodeList] at h
  | cons a as ih =>
    intro y h
    cases y with
    | nil => simp [encodeList] at h
    | cons b bs =>
      simp only [encodeList, Nat.add_right_cancel_iff, Nat.pair_eq_pair] at h
      rw [h.1, ih h.2]

theorem segTag_inj {dk dk' : Nat} {np np' : List Nat} {n n' : Nat}
    {b b' : Bool} {pt pt' : List Nat}
    (h : segTag dk np n b pt = segTag dk' np' n' b' pt') :
    dk = dk' ∧ np = np' ∧ n = n' ∧ b = b' ∧ pt = pt' := by
  have h2 := encodeList_injective h
  simp only [List.cons.injEq] at h2
  obtain ⟨h3, h4, h5, h6, h7, -⟩ := h2
  refine ⟨h3, encodeList_injective h4, h5, ?_, encodeList_injective h7⟩
  cases b <;> cases b' <;> simp_all

theorem deriveKey_inj {k k' : Nat} {salt salt' aad aad' : List Nat}
    (h : deriveKey k salt aad = deriveKey k' salt' aad') :
    k = k' ∧ salt = salt' ∧ aad = aad' := by
  have h2 := encodeList_injective h
  simp only [List.cons.injEq] at h2
  obtain ⟨h3, h4, h5, -⟩ := h2
  exact ⟨h3, encodeList_injective h4, encodeList_injective h5⟩

/-! ### Segment cipher lemmas -/

theorem decryptSegment_encryptSegment (dk : Nat) (np : List Nat) (n : Nat)
    (b : Bool) (pt : List Nat) :
    decryptSegment dk np n b (encryptSegment dk np n b pt) = some pt := by
  simp [decryptSegment, encryptSegment, List.getLast?_concat]

theorem decryptSegment_some_inv {dk : Nat} {np : List Nat} {n : Nat} {b : Bool}
    {c pt : List Nat} (h : decryptSegment dk np n b c = some pt) :
    pt = c.dropLast ∧ c = encryptSegment dk np n b pt := by
  rw [decryptSegment] at h
  cases hg : c.getLast? with
  | none => rw [hg] at h; exact absurd h (by simp [Option.bind])
  | some tag =>
    rw [hg] at h
    simp only [Option.bind] at h
    by_cases ht : tag = segTag dk np n b c.dropLast
    · rw [if_pos ht] at h
      have hpt : pt = c.dropLast := by
        injection h with h'
        exact h'.symm
      refine ⟨hpt, ?_⟩
      have hc : c ≠ [] := by
        intro hc; rw [hc] at hg; simp at hg
      have hd := List.dropLast_concat_getLast hc
      rw [encryptSegment, hpt, ← ht]
      rw [List.getLast?_eq_getLast c hc] at hg
      injection hg with hg'
      rw [← hg']
      exact hd.symm
    · rw [if_neg ht] at h
      exact absurd h (by simp)

theorem decryptSegment_wrong_params {dk dk' : Nat} {np np' : List Nat}
    {n n' : Nat} {b b' : Bool} {pt pt' : List Nat}
    (h : decryptSegment dk' np' n' b' (encryptSegment dk np n b pt) = some pt') :
    dk' = dk ∧ np' = np ∧ n' = n ∧ b' = b ∧ pt' = pt := by
  obtain ⟨h1, h2⟩ := decryptSegment_some_inv h
  rw [encryptSegment, List.dropLast_concat] at h1
  rw [encryptSegment, encryptSegment] at h2
  have h3 : segTag dk np n b pt = segTag dk' np' n' b' pt' := by
    have h4 := congrArg List.getLast? h2
    rw [List.getLast?_concat, List.getLast?_concat] at h4
    injection h4
  obtain ⟨a1, a2, a3, a4, -⟩ := segTag_inj h3
  exact ⟨a1.symm, a2.symm, a3.symm, a4.symm, h1⟩

theorem decryptSegment_flip (dk : Nat) (np : List Nat) (n : Nat) (b : Bool)
    (pt : List Nat) (i j : Nat) (h : i < (encryptSegment dk np n b pt).length) :
    decryptSegment dk np n b (flipAt (encryptSegment dk np n b pt) i j) = none := by
  cases hres : decryptSegment dk np n b (flipAt (encryptSegment dk np n b pt) i j) with
  | none => rfl
  | some q =>
    exfalso
    obtain ⟨-, h2⟩ := decryptSegment_some_inv hres
    rw [encryptSegment] at h
    simp only [List.length_append, List.length_cons, List.length_nil] at h
    by_cases hi : i < pt.length
    · rw [encryptSegment, flipAt_append_left _ _ _ _ hi] at h2
      rw [encryptSegment] at h2
      have hq : flipAt pt i j = q := by
        have hdl := congrArg List.dropLast h2
        rwa [List.dropLast_concat, List.dropLast_concat] at hdl
      have htag : segTag dk np n b pt = segTag dk np n b q := by
        have hgl := congrArg List.getLast? h2
        rw [List.getLast?_concat, List.getLast?_concat] at hgl
        injection hgl
      have hpq : pt = q := (segTag_inj htag).2.2.2.2
      rw [← hpq] at hq
      exact flipAt_ne pt i j hi hq
    · have hieq : i = pt.length := by omega
      rw [encryptSegment, flipAt_append_right _ _ _ _ (by omega)] at h2
      rw [hieq, Nat.sub_self] at h2
      rw [flipAt_cons_zero, encryptSegment] at h2
      have hq : pt = q := by
        have hdl := congrArg List.dropLast h2
        rwa [List.dropLast_concat, List.dropLast_concat] at hdl
      subst hq
      have htag : segTag dk np n b pt ^^^ 2 ^ j = segTag dk np n b pt := by
        have hgl := congrArg List.getLast? h2
        rw [List.getLast?_concat, List.getLast?_concat] at hgl
        injection hgl
      have h4 := congrArg (fun x => segTag dk np n b pt ^^^ x) htag
      simp only [← Nat.xor_assoc, Nat.xor_self, Nat.zero_xor] at h4
      have := Nat.two_pow_pos j
      omega

/-! ### Header lemmas -/

theorem parseHeader_mkHeader (salt np body : List Nat) :
    parseHeader salt.length np.length (mkHeader salt np ++ body) =
      some (⟨salt, np⟩, body) := by
  have hrest : (salt ++ np) ++ body = salt ++ (np ++ body) := List.append_assoc _ _ _
  simp only [mkHeader, List.cons_append, parseHeader]
  rw [if_pos]
  · have h1 : ((salt ++ np) ++ body).take salt.length = salt := by
      rw [hrest]; exact List.take_left _ _
    have h2 : ((salt ++ np) ++ body).drop salt.length = np ++ body := by
      rw [hrest]; exact List.drop_left _ _
    have h3 : ((salt ++ np) ++ body).drop (salt.length + np.length) = body := by
      refine List.drop_left' ?_
      simp
    rw [h1, h2, h3, List.take_left]
  · refine ⟨by simp, ?_⟩
    simp only [List.length_append]
    omega

/-! ### Segment-list structure lemmas -/

theorem ptSegments_ne_nil (ps h : Nat) (p : List Nat) : ptSegments ps h p ≠ [] := by
  simp [ptSegments, splitFirst]

theorem ptSegments_flatten (ps h : Nat) (hps : 0 < ps) (p : List Nat) :
    (ptSegments ps h p).flatten = p := by
  simp only [ptSegments, splitFirst, List.flatten_cons]
  rw [flatten_chunks ps hps]
  exact List.take_append_drop _ p

theorem ptSegments_segmented (ps h : Nat) (hh : h ≤ ps) (hps : 0 < ps)
    (p : List Nat) : Segmented ps (ps - h) (ptSegments ps h p) := by
  simp only [ptSegments, splitFirst]
  by_cases hd : p.drop (ps - h) = []
  · rw [hd, chunks_nil]
    refine Segmented.last _ _ ?_
    simp only [List.length_take]
    omega
  · have hlen : ps - h < p.length := by
      by_contra hc
      exact hd (List.drop_eq_nil_of_le (by omega))
    have htail := chunks_segmented ps hps _ hd
    have hne2 : chunks ps (p.drop (ps - h)) ≠ [] := by
      rw [Ne, chunks_eq_nil_iff ps hps]
      exact hd
    obtain ⟨x, xs, hx⟩ := List.exists_cons_of_ne_nil hne2
    rw [hx] at htail ⊢
    refine Segmented.cons _ _ _ _ ?_ htail
    simp only [List.length_take]
    omega

theorem encSegs_isEmpty (dk : Nat) (np : List Nat) (n : Nat) (ss : List (List Nat)) :
    (encSegs dk np n ss).isEmpty = ss.isEmpty := by
  match ss with
  | [] => rfl
  | [s] => rfl
  | s :: s' :: t => rfl

theorem encSegs_cons_shape (dk : Nat) (np : List Nat) (n : Nat) (s : Nat → Nat)
    (ss : List (List Nat)) (hne : ss ≠ []) :
    ∃ c rest, encSegs dk np n ss = c :: rest := by
  match ss with
  | [s] => exact ⟨_, _, rfl⟩
  | s :: s' :: t => exact ⟨_, _, rfl⟩

theorem encSegs_length (dk : Nat) (np : List Nat) :
    ∀ (ss : List (List Nat)) (n : Nat), (encSegs dk np n ss).length = ss.length := by
  intro ss
  induction ss with
  | nil => intro n; rfl
  | cons s rest ih =>
    intro n
    cases rest with
    | nil => rfl
    | cons s' t =>
      show (encryptSegment dk np n false s :: encSegs dk np (n + 1) (s' :: t)).length = _
      simp only [List.length_cons, ih (n + 1)]

theorem encSegs_flatten_length (dk : Nat) (np : List Nat) :
    ∀ (ss : List (List Nat)) (n : Nat),
      (encSegs dk np n ss).flatten.length = ss.flatten.length + ss.length := by
  intro ss
  induction ss with
  | nil => intro n; rfl
  | cons s rest ih =>
    intro n
    cases rest with
    | nil =>
      show (encryptSegment dk np n true s :: []).flatten.length = _
      simp only [List.flatten_cons, List.flatten_nil, List.append_nil, encryptSegment,
        List.length_append, List.length_cons, List.length_nil]
    | cons s' t =>
      show (encryptSegment dk np n false s :: encSegs dk np (n + 1) (s' :: t)).flatten.length = _
      simp only [List.flatten_cons, List.length_append, ih (n + 1), encryptSegment,
        List.length_cons, List.length_nil]
      omega

theorem chunks_eq_splitFirst (cs : Nat) (hcs : 0 < cs) (l : List Nat) (hl : l ≠ []) :
    chunks cs l = splitFirst cs cs l := by
  rw [splitFirst, ← chunks_cons_eq cs hcs l hl]

theorem encSegs_flatten_ne_nil (dk : Nat) (np : List Nat) (n : Nat)
    (ss : List (List Nat)) (hne : ss ≠ []) : (encSegs dk np n ss).flatten ≠ [] := by
  match ss with
  | [s] =>
    show (encryptSegment dk np n true s :: []).flatten ≠ []
    simp [encryptSegment]
  | s :: s' :: t =>
    show (encryptSegment dk np n false s :: encSegs dk np (n + 1) (s' :: t)).flatten ≠ []
    simp [encryptSegment]

theorem splitFirst_encSegs (dk : Nat) (np : List Nat) (cs : Nat) :
    ∀ (c0 : Nat) (ss : List (List Nat)), Segmented cs c0 ss → ∀ (n : Nat),
      splitFirst (c0 + 1) (cs + 1) ((encSegs dk np n ss).flatten) =
        encSegs dk np n ss := by
  intro c0 ss hseg
  induction hseg with
  | last c0 s hs =>
    intro n
    show splitFirst (c0 + 1) (cs + 1) ((encryptSegment dk np n true s :: []).flatten) = _
    simp only [List.flatten_cons, List.flatten_nil, List.append_nil]
    rw [splitFirst]
    have hlen : (encryptSegment dk np n true s).length ≤ c0 + 1 := by
      simp only [encryptSegment, List.length_append, List.length_cons, List.length_nil]
      omega
    rw [List.take_of_length_le hlen, List.drop_eq_nil_of_le hlen, chunks_nil]
    rfl
  | cons c0 s s' t hs htail ih =>
    intro n
    show splitFirst (c0 + 1) (cs + 1)
        ((encryptSegment dk np n false s :: encSegs dk np (n + 1) (s' :: t)).flatten) = _
    simp only [List.flatten_cons]
    rw [splitFirst]
    have hlen : (encryptSegment dk np n false s).length = c0 + 1 := by
      simp only [encryptSegment, List.length_append, List.length_cons, List.length_nil]
      omega
    rw [List.take_left' hlen, List.drop_left' hlen]
    have hne : (encSegs dk np (n + 1) (s' :: t)).flatten ≠ [] :=
      encSegs_flatten_ne_nil dk np (n + 1) _ (List.cons_ne_nil _ _)
    rw [chunks_eq_splitFirst (cs + 1) (by omega) _ hne]
    exact congrArg _ (ih (n + 1))

theorem decSegs_encSegs (dk : Nat) (np : List Nat) :
    ∀ (ss : List (List Nat)) (n : Nat),
      decSegs dk np n (encSegs dk np n ss) = .ok ss := by
  intro ss
  induction ss with
  | nil => intro n; rfl
  | cons s rest ih =>
    intro n
    cases rest with
    | nil =>
      show decSegs dk np n [encryptSegment dk np n true s] = .ok [s]
      rw [decSegs]
      have hne : (encryptSegment dk np n true s).isEmpty = false := by
        simp [encryptSegment, List.isEmpty_iff]
      rw [hne]
      simp [decryptSegment_encryptSegment]
    | cons s' t =>
      obtain ⟨c, cr, hE⟩ :=
        encSegs_cons_shape dk np (n + 1) id (s' :: t) (List.cons_ne_nil _ _)
      show decSegs dk np n
          (encryptSegment dk np n false s :: encSegs dk np (n + 1) (s' :: t)) = _
      rw [hE, decSegs, decryptSegment_encryptSegment, ← hE, ih (n + 1)]

theorem encSegs_head_decrypt (dk : Nat) (np : List Nat) (s : List Nat)
    (tail : List (List Nat)) (n : Nat) (c0 : List Nat) (rest : List (List Nat))
    (hE : encSegs dk np n (s :: tail) = c0 :: rest) :
    decryptSegment dk np n rest.isEmpty c0 = some s := by
  cases tail with
  | nil =>
    have hE2 : [encryptSegment dk np n true s] = c0 :: rest := hE
    injection hE2 with ha hb
    subst ha
    rw [← hb]
    exact decryptSegment_encryptSegment dk np n true s
  | cons s' t =>
    have hE2 : encryptSegment dk np n false s :: encSegs dk np (n + 1) (s' :: t) =
        c0 :: rest := hE
    injection hE2 with ha hb
    subst ha
    rw [← hb, encSegs_isEmpty]
    exact decryptSegment_encryptSegment dk np n false s

/-! ### Sequential roundtrip -/

theorem decryptStream_encryptStream (key : Nat) (salt np aad : List Nat)
    (ps : Nat) (p : List Nat) (hps : headerLen salt.length np.length < ps) :
    decryptStream [key] aad salt.length np.length ps
      (encryptStream key salt np aad ps p) = .ok p := by
  have h1 : 1 ≤ headerLen salt.length np.length := by rw [headerLen]; omega
  have hh : headerLen salt.length np.length ≤ ps := le_of_lt hps
  have hps0 : 0 < ps := by omega
  set hL := headerLen salt.length np.length with hhL
  set dk := deriveKey key salt aad with hdk
  set segs := ptSegments ps hL p with hsegs
  have hsegne := ptSegments_ne_nil ps hL p
  have hsegm := ptSegments_segmented ps hL hh hps0 p
  have harith : ps + 1 - hL = (ps - hL) + 1 := by omega
  rw [encryptStream, decryptStream]
  rw [show headerLen salt.length np.length = hL from rfl]
  rw [parseHeader_mkHeader]
  show (match splitFirst (ps + 1 - hL) (ps + 1)
      (encSegs dk np 0 segs).flatten with
    | [] => Except.error StreamError.truncatedStream
    | c0 :: rest =>
      match findKey aad salt np rest.isEmpty c0 [key] with
      | none => Except.error StreamError.noMatchingKey
      | some k =>
        match decSegs (deriveKey k salt aad) np 0 (c0 :: rest) with
        | .ok out => Except.ok out.flatten
        | .error e => Except.error e) = Except.ok p
  rw [harith, splitFirst_encSegs dk np ps (ps - hL) segs hsegm 0]
  obtain ⟨s0, tl, hsegsE⟩ := List.exists_cons_of_ne_nil hsegne
  obtain ⟨c0, rest, hE⟩ := encSegs_cons_shape dk np 0 id segs hsegne
  rw [hE]
  have hdec := encSegs_head_decrypt dk np s0 tl 0 c0 rest (by rw [← hsegsE]; exact hE)
  show (match findKey aad salt np rest.isEmpty c0 [key] with
    | none => Except.error StreamError.noMatchingKey
    | some k =>
      match decSegs (deriveKey k salt aad) np 0 (c0 :: rest) with
      | .ok out => Except.ok out.flatten
      | .error e => Except.error e) = Except.ok p
  rw [findKey, hdec]
  show (match decSegs (deriveKey key salt aad) np 0 (c0 :: rest) with
    | .ok out => Except.ok out.flatten
    | .error e => Except.error e) = Except.ok p
  rw [← hdk, ← hE, decSegs_encSegs dk np segs 0]
  show Except.ok segs.flatten = Except.ok p
  rw [hsegs, ptSegments_flatten ps hL hps0 p]

/-! ### Length bounds and segment counting -/

theorem segmented_flatten_le (cs : Nat) :
    ∀ (c0 : Nat) (ss : List (List Nat)), Segmented cs c0 ss →
      ss.flatten.length ≤ c0 + (ss.length - 1) * cs := by
  intro c0 ss hseg
  induction hseg with
  | last c0 s hs =>
    simp only [List.flatten_cons, List.flatten_nil, List.append_nil,
      List.length_cons, List.length_nil]
    omega
  | cons c0 s s' t hs htail ih =>
    simp only [List.flatten_cons, List.length_append, List.length_cons] at ih ⊢
    have e1 : (t.length + 1 + 1 - 1) * cs = (t.length + 1 - 1) * cs + cs := by
      simp only [Nat.add_sub_cancel, Nat.succ_mul]
    omega

theorem encSegs_flatten_bounds (dk : Nat) (np : List Nat) (cs : Nat) :
    ∀ (c0 : Nat) (ss : List (List Nat)), Segmented cs c0 ss → ∀ (n : Nat),
      (ss.length - 1) * (cs + 1) + 1 ≤
          (encSegs dk np n ss).flatten.length + (cs - c0) ∧
        (encSegs dk np n ss).flatten.length ≤
          (ss.length - 1) * (cs + 1) + (c0 + 1) := by
  intro c0 ss hseg
  induction hseg with
  | last c0 s hs =>
    intro n
    have hlen : (encSegs dk np n [s]).flatten.length = s.length + 1 := by
      show (encryptSegment dk np n true s :: []).flatten.length = _
      simp only [List.flatten_cons, List.flatten_nil, List.append_nil, encryptSegment,
        List.length_append, List.length_cons, List.length_nil]
    rw [hlen]
    simp only [List.length_cons, List.length_nil]
    omega
  | cons c0 s s' t hs htail ih =>
    intro n
    have hlen : (encSegs dk np n (s :: s' :: t)).flatten.length =
        (c0 + 1) + (encSegs dk np (n + 1) (s' :: t)).flatten.length := by
      show (encryptSegment dk np n false s ::
        encSegs dk np (n + 1) (s' :: t)).flatten.length = _
      simp only [List.flatten_cons, List.length_append, encryptSegment,
        List.length_cons, List.length_nil]
      omega
    rw [hlen]
    obtain ⟨ih1, ih2⟩ := ih (n + 1)
    have e1 : ((s :: s' :: t).length - 1) * (cs + 1) =
        t.length * (cs + 1) + (cs + 1) := by
      simp only [List.length_cons, Nat.add_sub_cancel, Nat.succ_mul]
    have e2 : ((s' :: t).length - 1) * (cs + 1) = t.length * (cs + 1) := by
      simp only [List.length_cons, Nat.add_sub_cancel]
    rw [e2] at ih1 ih2
    rw [e1]
    omega

theorem encryptStream_length (key : Nat) (salt np aad : List Nat) (ps : Nat)
    (p : List Nat) (hps0 : 0 < ps) :
    (encryptStream key salt np aad ps p).length =
      headerLen salt.length np.length + p.length +
        (ptSegments ps (headerLen salt.length np.length) p).length := by
  rw [encryptStream]
  simp only [List.length_append, mkHeader, List.length_cons,
    encSegs_flatten_length]
  have hplen : (ptSegments ps (headerLen salt.length np.length) p).flatten.length
      = p.length :=
    congrArg List.length (ptSegments_flatten ps _ hps0 p)
  rw [hplen, headerLen]
  omega

theorem numSegments_encryptStream (key : Nat) (salt np aad : List Nat)
    (ps : Nat) (p : List Nat) (hps : headerLen salt.length np.length < ps) :
    numSegments ps (encryptStream key salt np aad ps p).length =
      (ptSegments ps (headerLen salt.length np.length) p).length := by
  have h1 : 1 ≤ headerLen salt.length np.length := by rw [headerLen]; omega
  have hh : headerLen salt.length np.length ≤ ps := le_of_lt hps
  have hps0 : 0 < ps := by omega
  set hL := headerLen salt.length np.length with hhL
  set dk := deriveKey key salt aad with hdk
  set segs := ptSegments ps hL p with hsegsdef
  have hsegne := ptSegments_ne_nil ps hL p
  have hsegm := ptSegments_segmented ps hL hh hps0 p
  obtain ⟨hb1, hb2⟩ := encSegs_flatten_bounds dk np ps (ps - hL) segs hsegm 0
  have hsub : ps - (ps - hL) = hL := by omega
  rw [hsub] at hb1
  have hLval : hL = 1 + salt.length + np.length := by rw [hhL, headerLen]
  have hctlen : (encryptStream key salt np aad ps p).length =
      hL + (encSegs dk np 0 segs).flatten.length := by
    rw [encryptStream, ← hhL, ← hdk, ← hsegsdef]
    simp only [List.length_append, mkHeader, List.length_cons, ← hhL]
    omega
  obtain ⟨s0, tl, hsegsE⟩ := List.exists_cons_of_ne_nil hsegne
  have hLlen : segs.length = tl.length + 1 := by
    rw [hsegsdef, hsegsE]
    rfl
  have e3 : segs.length * (ps + 1) = (segs.length - 1) * (ps + 1) + (ps + 1) := by
    rw [hLlen]
    simp only [Nat.add_sub_cancel, Nat.succ_mul]
  have e4 : (segs.length + 1) * (ps + 1) = segs.length * (ps + 1) + (ps + 1) := by
    simp only [Nat.succ_mul]
  rw [numSegments, hctlen]
  apply Nat.div_eq_of_lt_le
  · omega
  · omega

/-! ### Random-access segment retrieval -/

theorem getCtSegment_eq_getD (ps hL : Nat) (hh : hL ≤ ps) (ct : List Nat)
    (hctlen : hL ≤ ct.length) (n : Nat) :
    getCtSegment ps hL ct n =
      (splitFirst (ps + 1 - hL) (ps + 1) (ct.drop hL)).getD n [] := by
  cases n with
  | zero =>
    rw [getCtSegment, segCtStart]
    simp only [if_pos rfl]
    show (ct.drop hL).take (min ((0 + 1) * (ps + 1)) ct.length - hL) =
      ((ct.drop hL).take (ps + 1 - hL) :: chunks (ps + 1) ((ct.drop hL).drop (ps + 1 - hL))).getD 0 []
    rw [List.getD_cons_zero]
    by_cases hc : ps + 1 ≤ ct.length
    · have : min ((0 + 1) * (ps + 1)) ct.length = ps + 1 := by
        rw [Nat.one_mul]
        omega
      rw [this]
    · have hm : min ((0 + 1) * (ps + 1)) ct.length = ct.length := by
        rw [Nat.one_mul]
        omega
      rw [hm]
      have hld : (ct.drop hL).length = ct.length - hL := List.length_drop _ _
      rw [List.take_of_length_le (by omega), List.take_of_length_le (by omega)]
  | succ m =>
    rw [getCtSegment, segCtStart]
    simp only [if_neg (Nat.succ_ne_zero m)]
    show (ct.drop ((m + 1) * (ps + 1))).take
        (min ((m + 1 + 1) * (ps + 1)) ct.length - (m + 1) * (ps + 1)) =
      ((ct.drop hL).take (ps + 1 - hL) ::
        chunks (ps + 1) ((ct.drop hL).drop (ps + 1 - hL))).getD (m + 1) []
    rw [List.getD_cons_succ, chunks_getD (ps + 1) (by omega)]
    have hd1 : (ct.drop hL).drop (ps + 1 - hL) = ct.drop (ps + 1) := by
      rw [List.drop_drop]
      congr 1
      omega
    rw [hd1, List.drop_drop]
    have e1 : (m + 1) * (ps + 1) = ps + 1 + m * (ps + 1) := by
      simp only [Nat.succ_mul]
      omega
    have e2 : (m + 1 + 1) * (ps + 1) = (m + 1) * (ps + 1) + (ps + 1) := by
      simp only [Nat.succ_mul]
    rw [← e1]
    by_cases hc : (m + 1 + 1) * (ps + 1) ≤ ct.length
    · have : min ((m + 1 + 1) * (ps + 1)) ct.length = (m + 1 + 1) * (ps + 1) := by omega
      rw [this]
      congr 1
      omega
    · have hm2 : min ((m + 1 + 1) * (ps + 1)) ct.length = ct.length := by omega
      rw [hm2]
      have hld : (ct.drop ((m + 1) * (ps + 1))).length =
          ct.length - (m + 1) * (ps + 1) := List.length_drop _ _
      rw [List.take_of_length_le (by omega), List.take_of_length_le (by omega)]

theorem encSegs_getD (dk : Nat) (np : List Nat) :
    ∀ (ss : List (List Nat)) (n j : Nat), j < ss.length →
      (encSegs dk np n ss).getD j [] =
        encryptSegment dk np (n + j) (decide (j + 1 = ss.length)) (ss.getD j []) := by
  intro ss
  induction ss with
  | nil => intro n j hj; simp at hj
  | cons s rest ih =>
    intro n j hj
    cases rest with
    | nil =>
      have hj0 : j = 0 := by
        simp only [List.length_cons, List.length_nil] at hj
        omega
      subst hj0
      show ([encryptSegment dk np n true s] :
          List (List Nat)).getD 0 [] = _
      simp
    | cons s' t =>
      cases j with
      | zero =>
        show (encryptSegment dk np n false s ::
            encSegs dk np (n + 1) (s' :: t)).getD 0 [] = _
        rw [List.getD_cons_zero]
        have hd : decide (0 + 1 = (s :: s' :: t).length) = false := by
          simp
        rw [hd]
        rfl
      | succ m =>
        show (encryptSegment dk np n false s ::
            encSegs dk np (n + 1) (s' :: t)).getD (m + 1) [] = _
        rw [List.getD_cons_succ]
        have hm : m < (s' :: t).length := by
          simp only [List.length_cons] at hj ⊢
          omega
        rw [ih (n + 1) m hm]
        have e1 : n + 1 + m = n + (m + 1) := by omega
        have e2 : (decide (m + 1 = (s' :: t).length)) =
            (decide (m + 1 + 1 = (s :: s' :: t).length)) := by
          rw [decide_eq_decide]
          simp only [List.length_cons]
          omega
        rw [e1, e2, List.getD_cons_succ]

theorem mkHeader_length (salt np : List Nat) :
    (mkHeader salt np).length = headerLen salt.length np.length := by
  simp only [mkHeader, List.length_cons, List.length_append, headerLen]
  omega

theorem encryptStream_drop_header (key : Nat) (salt np aad : List Nat)
    (ps : Nat) (p : List Nat) :
    (encryptStream key salt np aad ps p).drop (headerLen salt.length np.length) =
      (encSegs (deriveKey key salt aad) np 0
        (ptSegments ps (headerLen salt.length np.length) p)).flatten := by
  rw [encryptStream]
  exact List.drop_left' (mkHeader_length salt np)

theorem raDecryptSegment_enc (key : Nat) (salt np aad : List Nat) (ps : Nat)
    (p : List Nat) (hps : headerLen salt.length np.length < ps) (n : Nat)
    (hn : n < (ptSegments ps (headerLen salt.length np.length) p).length) :
    raDecryptSegment (deriveKey key salt aad) np ps
        (headerLen salt.length np.length)
        (encryptStream key salt np aad ps p) n =
      .ok ((ptSegments ps (headerLen salt.length np.length) p).getD n []) := by
  have h1 : 1 ≤ headerLen salt.length np.length := by rw [headerLen]; omega
  have hh : headerLen salt.length np.length ≤ ps := le_of_lt hps
  have hps0 : 0 < ps := by omega
  set hL := headerLen salt.length np.length with hhL
  set dk := deriveKey key salt aad with hdk
  set segs := ptSegments ps hL p with hsegsdef
  set ct := encryptStream key salt np aad ps p with hct
  have hsegm : Segmented ps (ps - hL) segs := ptSegments_segmented ps hL hh hps0 p
  have hctlen : hL ≤ ct.length := by
    rw [hct, encryptStream_length key salt np aad ps p hps0, ← hhL, ← hsegsdef]
    omega
  have harith : ps + 1 - hL = (ps - hL) + 1 := by omega
  have hcseg : getCtSegment ps hL ct n =
      encryptSegment dk np n (decide (n + 1 = segs.length)) (segs.getD n []) := by
    rw [getCtSegment_eq_getD ps hL hh ct hctlen n]
    rw [hct, encryptStream_drop_header key salt np aad ps p, ← hhL, ← hdk, ← hsegsdef]
    rw [harith, splitFirst_encSegs dk np ps (ps - hL) segs hsegm 0]
    rw [encSegs_getD dk np segs 0 n hn]
    rw [Nat.zero_add]
  have hnum : numSegments ps ct.length = segs.length := by
    rw [hct]
    rw [numSegments_encryptStream key salt np aad ps p hps, ← hhL, ← hsegsdef]
  rw [raDecryptSegment]
  simp only [hcseg, hnum]
  have hempty : (encryptSegment dk np n (decide (n + 1 = segs.length))
      (segs.getD n [])).isEmpty = false := by
    simp [encryptSegment, List.isEmpty_iff]
  rw [hempty]
  simp only [Bool.false_eq_true, if_false, decryptSegment_encryptSegment]

theorem raReadSegments_enc (key : Nat) (salt np aad : List Nat) (ps : Nat)
    (p : List Nat) (hps : headerLen salt.length np.length < ps) :
    ∀ (cnt n0 : Nat),
      n0 + cnt ≤ (ptSegments ps (headerLen salt.length np.length) p).length →
      raReadSegments (deriveKey key salt aad) np ps
          (headerLen salt.length np.length)
          (encryptStream key salt np aad ps p) n0 cnt =
        .ok ((((ptSegments ps (headerLen salt.length np.length) p).drop n0).take
          cnt).flatten) := by
  intro cnt
  induction cnt with
  | zero =>
    intro n0 hle
    simp [raReadSegments]
  | succ m ih =>
    intro n0 hle
    have hn0 : n0 < (ptSegments ps (headerLen salt.length np.length) p).length := by
      omega
    rw [raReadSegments, raDecryptSegment_enc key salt np aad ps p hps n0 hn0]
    rw [ih (n0 + 1) (by omega)]
    have hdropc : (ptSegments ps (headerLen salt.length np.length) p).drop n0 =
        (ptSegments ps (headerLen salt.length np.length) p).getD n0 [] ::
          (ptSegments ps (headerLen salt.length np.length) p).drop (n0 + 1) := by
      rw [List.getD_eq_getElem _ _ hn0]
      exact List.drop_eq_getElem_cons hn0
    rw [hdropc, List.take_succ_cons, List.flatten_cons]

theorem segs_drop_flatten (ps hL : Nat) (hh : hL ≤ ps) (hps0 : 0 < ps)
    (p : List Nat) (k : Nat) :
    ((ptSegments ps hL p).drop k).flatten = p.drop (ptSegStart ps hL k) := by
  cases k with
  | zero =>
    rw [List.drop_zero, ptSegments_flatten ps hL hps0 p, ptSegStart]
    rw [Nat.zero_mul, Nat.zero_sub, List.drop_zero]
  | succ m =>
    show ((p.take (ps - hL) :: chunks ps (p.drop (ps - hL))).drop (m + 1)).flatten = _
    rw [List.drop_succ_cons, chunks_drop_flatten ps hps0 m, List.drop_drop]
    congr 1
    rw [ptSegStart]
    have e1 : (m + 1) * ps = m * ps + ps := by simp only [Nat.succ_mul]
    omega

theorem getCtSegment_enc (key : Nat) (salt np aad : List Nat) (ps : Nat)
    (p : List Nat) (hps : headerLen salt.length np.length < ps) (n : Nat)
    (hn : n < (ptSegments ps (headerLen salt.length np.length) p).length) :
    getCtSegment ps (headerLen salt.length np.length)
        (encryptStream key salt np aad ps p) n =
      encryptSegment (deriveKey key salt aad) np n
        (decide (n + 1 = (ptSegments ps (headerLen salt.length np.length) p).length))
        ((ptSegments ps (headerLen salt.length np.length) p).getD n []) := by
  have h1 : 1 ≤ headerLen salt.length np.length := by rw [headerLen]; omega
  have hh : headerLen salt.length np.length ≤ ps := le_of_lt hps
  have hps0 : 0 < ps := by omega
  set hL := headerLen salt.length np.length with hhL
  set dk := deriveKey key salt aad with hdk
  set segs := ptSegments ps hL p with hsegsdef
  set ct := encryptStream key salt np aad ps p with hct
  have hsegm : Segmented ps (ps - hL) segs := ptSegments_segmented ps hL hh hps0 p
  have hctlen : hL ≤ ct.length := by
    rw [hct, encryptStream_length key salt np aad ps p hps0, ← hhL, ← hsegsdef]
    omega
  have harith : ps + 1 - hL = (ps - hL) + 1 := by omega
  rw [getCtSegment_eq_getD ps hL hh ct hctlen n]
  rw [hct, encryptStream_drop_header key salt np aad ps p, ← hhL, ← hdk, ← hsegsdef]
  rw [harith, splitFirst_encSegs dk np ps (ps - hL) segs hsegm 0]
  rw [encSegs_getD dk np segs 0 n hn, Nat.zero_add]

/-! ### Random-access master theorem -/

theorem pRead_enc (key : Nat) (salt np aad : List Nat) (ps : Nat) (p : List Nat)
    (hps : headerLen salt.length np.length < ps) (offset len : Nat) :
    pRead [key] aad salt.length np.length ps (encryptStream key salt np aad ps p)
        offset len =
      .ok ((p.drop offset).take (min len (p.length - offset))) := by
  have h1 : 1 ≤ headerLen salt.length np.length := by rw [headerLen]; omega
  have hh : headerLen salt.length np.length ≤ ps := le_of_lt hps
  have hps0 : 0 < ps := by omega
  set hL := headerLen salt.length np.length with hhL
  set dk := deriveKey key salt aad with hdk
  set segs := ptSegments ps hL p with hsegsdef
  set ct := encryptStream key salt np aad ps p with hct
  have hsegne : segs ≠ [] := ptSegments_ne_nil ps hL p
  have hsegm : Segmented ps (ps - hL) segs := ptSegments_segmented ps hL hh hps0 p
  have hctlen : ct.length = hL + p.length + segs.length := by
    rw [hct, encryptStream_length key salt np aad ps p hps0, ← hhL, ← hsegsdef]
  have hnum : numSegments ps ct.length = segs.length := by
    rw [hct, numSegments_encryptStream key salt np aad ps p hps, ← hhL, ← hsegsdef]
  have hn0lt : 0 < segs.length := List.length_pos.mpr hsegne
  have hparse : parseHeader salt.length np.length ct =
      some (⟨salt, np⟩, (encSegs dk np 0 segs).flatten) := by
    rw [hct, encryptStream, ← hhL, ← hdk, ← hsegsdef]
    exact parseHeader_mkHeader salt np _
  have hflag : (decide (1 = numSegments ps ct.length)) =
      (decide (0 + 1 = segs.length)) := by
    rw [decide_eq_decide, hnum]
  have hdec0 : decryptSegment dk np 0 (decide (1 = numSegments ps ct.length))
      (getCtSegment ps hL ct 0) = some (segs.getD 0 []) := by
    rw [hflag, hct, getCtSegment_enc key salt np aad ps p hps 0
      (by rw [← hhL, ← hsegsdef]; omega), ← hhL, ← hdk, ← hsegsdef]
    exact decryptSegment_encryptSegment dk np 0 _ _
  rw [pRead, hparse]
  show (match findKey aad salt np (decide (1 = numSegments ps ct.length))
      (getCtSegment ps hL ct 0) [key] with
    | none => Except.error StreamError.noMatchingKey
    | some k =>
      if ct.length - hL - numSegments ps ct.length ≤ offset then Except.ok []
      else
        if min len (ct.length - hL - numSegments ps ct.length - offset) = 0 then
          Except.ok []
        else
          match raReadSegments (deriveKey k salt aad) np ps hL ct
              ((streamPosition ps hL offset).1)
              ((streamPosition ps hL
                  (offset + min len (ct.length - hL - numSegments ps ct.length -
                    offset) - 1)).1 + 1 -
                (streamPosition ps hL offset).1) with
          | .error e => Except.error e
          | .ok buf =>
            Except.ok ((buf.drop
              (offset - ptSegStart ps hL ((streamPosition ps hL offset).1))).take
                (min len (ct.length - hL - numSegments ps ct.length - offset)))) =
    Except.ok ((p.drop offset).take (min len (p.length - offset)))
  rw [findKey, hdec0]
  show (if ct.length - hL - numSegments ps ct.length ≤ offset then Except.ok []
    else
      if min len (ct.length - hL - numSegments ps ct.length - offset) = 0 then
        Except.ok []
      else
        match raReadSegments (deriveKey key salt aad) np ps hL ct
            ((streamPosition ps hL offset).1)
            ((streamPosition ps hL
                (offset + min len (ct.length - hL - numSegments ps ct.length -
                  offset) - 1)).1 + 1 -
              (streamPosition ps hL offset).1) with
        | .error e => Except.error e
        | .ok buf =>
          Except.ok ((buf.drop
            (offset - ptSegStart ps hL ((streamPosition ps hL offset).1))).take
              (min len (ct.length - hL - numSegments ps ct.length - offset)))) =
    Except.ok ((p.drop offset).take (min len (p.length - offset)))
  have hptLen : ct.length - hL - numSegments ps ct.length = p.length := by
    rw [hnum, hctlen]
    omega
  rw [hptLen, ← hdk]
  by_cases hoff : p.length ≤ offset
  · rw [if_pos hoff]
    have hz : p.length - offset = 0 := by omega
    rw [hz, Nat.min_zero, List.take_zero]
  · rw [if_neg hoff]
    by_cases hlen0 : min len (p.length - offset) = 0
    · rw [if_pos hlen0, hlen0]
      simp
    · rw [if_neg hlen0]
      set len2 := min len (p.length - offset) with hlen2def
      have hlen2pos : 0 < len2 := by omega
      have hlen2le : offset + len2 ≤ p.length := by
        rw [hlen2def]
        omega
      set e := offset + len2 - 1 with hedef
      -- segment length bound
      obtain ⟨s0, tl, hsegsE⟩ := List.exists_cons_of_ne_nil hsegne
      have hLlen : segs.length = tl.length + 1 := by
        rw [hsegsE]
        rfl
      have hfl : segs.flatten.length = p.length := by
        rw [hsegsdef]
        exact congrArg List.length (ptSegments_flatten ps hL hps0 p)
      have hble := segmented_flatten_le ps (ps - hL) segs hsegm
      have e3 : segs.length * ps = (segs.length - 1) * ps + ps := by
        rw [hLlen]
        simp only [Nat.add_sub_cancel, Nat.succ_mul]
      have hplen_le : p.length + hL ≤ segs.length * ps := by
        rw [← hfl]
        omega
      set n0 := (streamPosition ps hL offset).1 with hn0def
      set n1 := (streamPosition ps hL e).1 with hn1def
      have hn0val : n0 = (offset + hL) / ps := rfl
      have hn1val : n1 = (e + hL) / ps := rfl
      have hn1lt : n1 < segs.length := by
        rw [hn1val, Nat.div_lt_iff_lt_mul hps0]
        omega
      have hn0le : n0 ≤ n1 := by
        rw [hn0val, hn1val]
        exact Nat.div_le_div_right (by omega)
      set cnt := n1 + 1 - n0 with hcntdef
      have hcnteq : n0 + cnt = n1 + 1 := by omega
      rw [hdk, hct, hhL]
      rw [raReadSegments_enc key salt np aad ps p hps cnt n0
        (by rw [← hhL, ← hsegsdef]; omega)]
      rw [← hhL, ← hsegsdef]
      show Except.ok ((((segs.drop n0).take cnt).flatten.drop
          (offset - ptSegStart ps hL n0)).take len2) =
        Except.ok ((p.drop offset).take (min len (p.length - offset)))
      set buf := ((segs.drop n0).take cnt).flatten with hbufdef
      set start := ptSegStart ps hL n0 with hstartdef
      set start2 := ptSegStart ps hL (n0 + cnt) with hstart2def
      have hsplitbuf : buf ++ (segs.drop (n0 + cnt)).flatten =
          (segs.drop n0).flatten := by
        rw [hbufdef, ← List.flatten_append]
        congr 1
        rw [← List.drop_drop]
        exact List.take_append_drop cnt (segs.drop n0)
      have hd1 : (segs.drop n0).flatten = p.drop start := by
        rw [hsegsdef, hstartdef]
        exact segs_drop_flatten ps hL hh hps0 p n0
      have hd2 : (segs.drop (n0 + cnt)).flatten = p.drop start2 := by
        rw [hsegsdef, hstart2def]
        exact segs_drop_flatten ps hL hh hps0 p (n0 + cnt)
      have hbuf_eq : buf = (p.drop start).take buf.length := by
        rw [← hd1, ← hsplitbuf, List.take_left]
      have hbuflen : buf.length + (p.length - start2) = p.length - start := by
        have hl := congrArg List.length hsplitbuf
        rw [List.length_append, hd2] at hl
        rw [hd1] at hl
        simpa [List.length_drop] using hl
      have f1 : n0 * ps ≤ offset + hL := by
        rw [hn0val]
        exact Nat.div_mul_le_self _ _
      have f2 : e + hL < n1 * ps + ps := by
        have hdm := Nat.div_add_mod (e + hL) ps
        have hmod : (e + hL) % ps < ps := Nat.mod_lt _ hps0
        have hmc : ps * ((e + hL) / ps) = n1 * ps := by
          rw [hn1val, Nat.mul_comm]
        omega
      have hstartval : start = n0 * ps - hL := rfl
      have hstart2val : start2 = (n0 + cnt) * ps - hL := rfl
      have e4 : (n1 + 1) * ps = n1 * ps + ps := by simp only [Nat.succ_mul]
      have hstart2big : offset + len2 ≤ start2 := by
        rw [hstart2val, hcnteq, e4]
        omega
      have hstartle : start ≤ offset := by
        rw [hstartval]
        omega
      have hkey : len2 ≤ buf.length - (offset - start) := by omega
      rw [hbuf_eq, List.drop_take, List.drop_drop]
      have hix : start + (offset - start) = offset := by omega
      rw [hix, List.take_take]
      have hmin : min len2 (buf.length - (offset - start)) = len2 := by omega
      rw [hmin, hlen2def]

/-! ### Tamper-sensitivity machinery -/

theorem xor_two_pow_ne (a j : Nat) : a ^^^ 2 ^ j ≠ a := by
  intro hc
  have h4 := congrArg (fun x => a ^^^ x) hc
  simp only [← Nat.xor_assoc, Nat.xor_self, Nat.zero_xor] at h4
  have := Nat.two_pow_pos j
  omega

theorem decryptSegment_other {dk dk' : Nat} {np np' : List Nat} {n n' : Nat}
    {b b' : Bool} {pt : List Nat} (hne : dk' ≠ dk ∨ np' ≠ np) :
    decryptSegment dk' np' n' b' (encryptSegment dk np n b pt) = none := by
  cases hres : decryptSegment dk' np' n' b' (encryptSegment dk np n b pt) with
  | none => rfl
  | some q =>
    obtain ⟨a1, a2, -, -, -⟩ := decryptSegment_wrong_params hres
    cases hne with
    | inl h => exact absurd a1 h
    | inr h => exact absurd a2 h

theorem segmented_cons_inv {cs c0 : Nat} {s s' : List Nat} {t : List (List Nat)}
    (h : Segmented cs c0 (s :: s' :: t)) :
    s.length = c0 ∧ Segmented cs cs (s' :: t) := by
  cases h with
  | cons _ _ _ _ h1 h2 => exact ⟨h1, h2⟩

theorem segmented_single_inv {cs c0 : Nat} {s : List Nat}
    (h : Segmented cs c0 [s]) : s.length ≤ c0 := by
  cases h with
  | last _ _ h1 => exact h1

theorem chunks_encSegs_flatten (dk : Nat) (np : List Nat) (cs : Nat)
    (ss : List (List Nat)) (hseg : Segmented cs cs ss) (n : Nat) :
    chunks (cs + 1) ((encSegs dk np n ss).flatten) = encSegs dk np n ss := by
  have hne' : ss ≠ [] := by cases hseg <;> simp
  rw [chunks_eq_splitFirst (cs + 1) (by omega) _
    (encSegs_flatten_ne_nil dk np n ss hne')]
  exact splitFirst_encSegs dk np cs cs ss hseg n

theorem isEmpty_false_of_ne_nil {l : List Nat} (h : l ≠ []) : l.isEmpty = false := by
  cases hemp : l.isEmpty
  · rfl
  · exact absurd (List.isEmpty_iff.mp hemp) h

theorem flip_decSegs (dk : Nat) (np : List Nat) (cs : Nat) :
    ∀ (ss : List (List Nat)) (n0 i j : Nat), Segmented cs cs ss →
      i < (encSegs dk np n0 ss).flatten.length →
      decSegs dk np n0
          (chunks (cs + 1) (flipAt ((encSegs dk np n0 ss).flatten) i j)) =
        .error .authenticationFailed := by
  intro ss
  induction ss with
  | nil => intro n0 i j hseg hi; cases hseg
  | cons s rest ih =>
    intro n0 i j hseg hi
    cases rest with
    | nil =>
      have hs : s.length ≤ cs := segmented_single_inv hseg
      have hflen : (encSegs dk np n0 [s]).flatten =
          encryptSegment dk np n0 true s := by
        show (encryptSegment dk np n0 true s :: []).flatten = _
        simp
      rw [hflen] at hi ⊢
      have henclen : (encryptSegment dk np n0 true s).length = s.length + 1 := by
        simp [encryptSegment]
      have hfliplen : (flipAt (encryptSegment dk np n0 true s) i j).length =
          s.length + 1 := by
        rw [length_flipAt, henclen]
      have hnn : flipAt (encryptSegment dk np n0 true s) i j ≠ [] := by
        intro hc
        have := congrArg List.length hc
        rw [hfliplen] at this
        simp at this
      rw [chunks_singleton (cs + 1) (by omega) _ hnn (by rw [hfliplen]; omega)]
      rw [decSegs, isEmpty_false_of_ne_nil hnn]
      rw [decryptSegment_flip dk np n0 true s i j hi]
      rfl
    | cons s' t =>
      obtain ⟨hs, htail⟩ := segmented_cons_inv hseg
      have hflen : (encSegs dk np n0 (s :: s' :: t)).flatten =
          encryptSegment dk np n0 false s ++
            (encSegs dk np (n0 + 1) (s' :: t)).flatten := by
        show (encryptSegment dk np n0 false s ::
          encSegs dk np (n0 + 1) (s' :: t)).flatten = _
        simp
      rw [hflen] at hi ⊢
      have hclen : (encryptSegment dk np n0 false s).length = cs + 1 := by
        simp [encryptSegment]
        omega
      rw [List.length_append, hclen] at hi
      by_cases hic : i < cs + 1
      · rw [flipAt_append_left _ _ _ _ (by omega)]
        have hfliplen : (flipAt (encryptSegment dk np n0 false s) i j).length =
            cs + 1 := by
          rw [length_flipAt, hclen]
        rw [chunks_append_full (cs + 1) (by omega) _ _ hfliplen]
        rw [chunks_encSegs_flatten dk np cs (s' :: t) htail (n0 + 1)]
        obtain ⟨c, cr, hE⟩ :=
          encSegs_cons_shape dk np (n0 + 1) id (s' :: t) (List.cons_ne_nil _ _)
        rw [hE, decSegs]
        rw [decryptSegment_flip dk np n0 false s i j (by rw [hclen]; omega)]
      · rw [flipAt_append_right _ _ _ _ (by omega), hclen]
        rw [chunks_append_full (cs + 1) (by omega) _ _ hclen]
        have hrne : flipAt ((encSegs dk np (n0 + 1) (s' :: t)).flatten)
            (i - (cs + 1)) j ≠ [] := by
          intro hc
          have h5 := congrArg List.length hc
          rw [length_flipAt] at h5
          exact encSegs_flatten_ne_nil dk np (n0 + 1) _ (List.cons_ne_nil _ _)
            (List.eq_nil_of_length_eq_zero h5)
        have hcne : chunks (cs + 1) (flipAt
            ((encSegs dk np (n0 + 1) (s' :: t)).flatten) (i - (cs + 1)) j) ≠ [] := by
          rw [Ne, chunks_eq_nil_iff (cs + 1) (by omega)]
          exact hrne
        obtain ⟨x, xs, hx⟩ := List.exists_cons_of_ne_nil hcne
        rw [hx, decSegs, decryptSegment_encryptSegment, ← hx]
        rw [ih (n0 + 1) (i - (cs + 1)) j htail (by omega)]

theorem encSegs_head_form (dk : Nat) (np : List Nat) (s : List Nat)
    (tail : List (List Nat)) (n : Nat) (c0 : List Nat) (rest : List (List Nat))
    (hE : encSegs dk np n (s :: tail) = c0 :: rest) :
    c0 = encryptSegment dk np n rest.isEmpty s := by
  cases tail with
  | nil =>
    have hE2 : [encryptSegment dk np n true s] = c0 :: rest := hE
    injection hE2 with ha hb
    subst ha
    rw [← hb]
    rfl
  | cons s' t =>
    have hE2 : encryptSegment dk np n false s :: encSegs dk np (n + 1) (s' :: t) =
        c0 :: rest := hE
    injection hE2 with ha hb
    subst ha
    rw [← hb, encSegs_isEmpty]
    rfl

theorem findKey_cons (aad salt np : List Nat) (b : Bool) (c0 : List Nat)
    (k : Nat) (ks : List Nat) :
    findKey aad salt np b c0 (k :: ks) =
      if (decryptSegment (deriveKey k salt aad) np 0 b c0).isSome then some k
      else findKey aad salt np b c0 ks := rfl

/-- Modelled from the spec: decrypting a single-bit-flipped valid ciphertext
always fails, with a malformed-header, no-matching-key or
authentication-failed error depending on the flipped region. -/
theorem decryptStream_flip_master (key : Nat) (salt np aad : List Nat)
    (ps : Nat) (p : List Nat) (hps : headerLen salt.length np.length < ps)
    (i j : Nat) (hi : i < (encryptStream key salt np aad ps p).length) :
    decryptStream [key] aad salt.length np.length ps
        (flipAt (encryptStream key salt np aad ps p) i j) =
          .error .malformedHeader ∨
      decryptStream [key] aad salt.length np.length ps
        (flipAt (encryptStream key salt np aad ps p) i j) =
          .error .noMatchingKey ∨
      decryptStream [key] aad salt.length np.length ps
        (flipAt (encryptStream key salt np aad ps p) i j) =
          .error .authenticationFailed := by
  have h1 : 1 ≤ headerLen salt.length np.length := by rw [headerLen]; omega
  have hh : headerLen salt.length np.length ≤ ps := le_of_lt hps
  have hps0 : 0 < ps := by omega
  set hL := headerLen salt.length np.length with hhL
  have hLval : hL = 1 + salt.length + np.length := by rw [hhL, headerLen]
  set dk := deriveKey key salt aad with hdk
  set segs := ptSegments ps hL p with hsegsdef
  set ct := encryptStream key salt np aad ps p with hct
  have hsegne : segs ≠ [] := ptSegments_ne_nil ps hL p
  have hsegm : Segmented ps (ps - hL) segs := ptSegments_segmented ps hL hh hps0 p
  have harith : ps + 1 - hL = (ps - hL) + 1 := by omega
  set B := (encSegs dk np 0 segs).flatten with hBdef
  have hctform : ct = hL :: ((salt ++ np) ++ B) := by
    rw [hct, encryptStream, ← hhL, ← hdk, ← hsegsdef, ← hBdef, mkHeader, ← hhL,
      List.cons_append]
  have hctlen2 : ct.length = hL + B.length := by
    rw [hctform]
    simp only [List.length_cons, List.length_append]
    omega
  cases i with
  | zero =>
    left
    rw [hctform, flipAt_cons_zero, decryptStream, parseHeader]
    rw [if_neg (by
      intro hcon
      exact xor_two_pow_ne hL j (hcon.1.trans hhL.symm))]
  | succ i' =>
    by_cases hiB : i' + 1 < hL
    · -- flip inside the header: salt or nonce-prefix region
      have hi'lt : i' < salt.length + np.length := by omega
      rw [hctform, flipAt_cons_succ]
      obtain ⟨s0, tl, hsegsE⟩ := List.exists_cons_of_ne_nil hsegne
      obtain ⟨c0, rest, hE⟩ := encSegs_cons_shape dk np 0 id segs hsegne
      have hE2 : encSegs dk np 0 (s0 :: tl) = c0 :: rest := by
        rw [← hsegsE]; exact hE
      have hc0form : c0 = encryptSegment dk np 0 rest.isEmpty s0 :=
        encSegs_head_form dk np s0 tl 0 c0 rest hE2
      by_cases hiB1 : i' < salt.length
      · -- salt flip
        right; left
        have hsplit1 : flipAt ((salt ++ np) ++ B) i' j =
            (flipAt salt i' j ++ np) ++ B := by
          rw [flipAt_append_left _ _ _ _
            (by simp only [List.length_append]; omega)]
          congr 1
          exact flipAt_append_left _ _ _ _ hiB1
        rw [hsplit1]
        have hsaltlen : (flipAt salt i' j).length = salt.length :=
          length_flipAt _ _ _
        have hform : (hL :: ((flipAt salt i' j ++ np) ++ B) : List Nat) =
            mkHeader (flipAt salt i' j) np ++ B := by
          rw [mkHeader, hsaltlen, ← hhL, List.cons_append]
        rw [hform]
        have hparse2 : parseHeader salt.length np.length
            (mkHeader (flipAt salt i' j) np ++ B) =
              some (⟨flipAt salt i' j, np⟩, B) := by
          conv_lhs =>
            rw [show salt.length = (flipAt salt i' j).length from hsaltlen.symm]
          exact parseHeader_mkHeader _ np B
        rw [decryptStream, hparse2]
        show (match splitFirst (ps + 1 - hL) (ps + 1) B with
          | [] => Except.error StreamError.truncatedStream
          | c0 :: rest =>
            match findKey aad (flipAt salt i' j) np rest.isEmpty c0 [key] with
            | none => Except.error StreamError.noMatchingKey
            | some k =>
              match decSegs (deriveKey k (flipAt salt i' j) aad) np 0
                  (c0 :: rest) with
              | .ok out => Except.ok out.flatten
              | .error e => Except.error e) =
          Except.error StreamError.noMatchingKey
        rw [hBdef, harith, splitFirst_encSegs dk np ps (ps - hL) segs hsegm 0, hE]
        show (match findKey aad (flipAt salt i' j) np rest.isEmpty c0 [key] with
          | none => Except.error StreamError.noMatchingKey
          | some k =>
            match decSegs (deriveKey k (flipAt salt i' j) aad) np 0
                (c0 :: rest) with
            | .ok out => Except.ok out.flatten
            | .error e => Except.error e) =
          Except.error StreamError.noMatchingKey
        have hdkne : deriveKey key (flipAt salt i' j) aad ≠ dk := by
          intro hc
          rw [hdk] at hc
          obtain ⟨-, h2, -⟩ := deriveKey_inj hc
          exact flipAt_ne salt i' j hiB1 h2
        have hdecnone : decryptSegment (deriveKey key (flipAt salt i' j) aad) np
            0 rest.isEmpty c0 = none := by
          rw [hc0form]
          exact decryptSegment_other (Or.inl hdkne)
        rw [findKey_cons, hdecnone]
        rfl
      · -- nonce-prefix flip
        right; left
        have hile : salt.length ≤ i' := by omega
        have hsplit1 : flipAt ((salt ++ np) ++ B) i' j =
            (salt ++ flipAt np (i' - salt.length) j) ++ B := by
          rw [flipAt_append_left _ _ _ _
            (by simp only [List.length_append]; omega)]
          congr 1
          exact flipAt_append_right _ _ _ _ hile
        rw [hsplit1]
        have hnplen : (flipAt np (i' - salt.length) j).length = np.length :=
          length_flipAt _ _ _
        have hform : (hL :: ((salt ++ flipAt np (i' - salt.length) j) ++ B) :
            List Nat) = mkHeader salt (flipAt np (i' - salt.length) j) ++ B := by
          rw [mkHeader, hnplen, ← hhL, List.cons_append]
        rw [hform]
        have hparse2 : parseHeader salt.length np.length
            (mkHeader salt (flipAt np (i' - salt.length) j) ++ B) =
              some (⟨salt, flipAt np (i' - salt.length) j⟩, B) := by
          conv_lhs =>
            rw [show np.length = (flipAt np (i' - salt.length) j).length from
              hnplen.symm]
          exact parseHeader_mkHeader salt _ B
        rw [decryptStream, hparse2]
        show (match splitFirst (ps + 1 - hL) (ps + 1) B with
          | [] => Except.error StreamError.truncatedStream
          | c0 :: rest =>
            match findKey aad salt (flipAt np (i' - salt.length) j) rest.isEmpty
                c0 [key] with
            | none => Except.error StreamError.noMatchingKey
            | some k =>
              match decSegs (deriveKey k salt aad)
                  (flipAt np (i' - salt.length) j) 0 (c0 :: rest) with
              | .ok out => Except.ok out.flatten
              | .error e => Except.error e) =
          Except.error StreamError.noMatchingKey
        rw [hBdef, harith, splitFirst_encSegs dk np ps (ps - hL) segs hsegm 0, hE]
        show (match findKey aad salt (flipAt np (i' - salt.length) j)
            rest.isEmpty c0 [key] with
          | none => Except.error StreamError.noMatchingKey
          | some k =>
            match decSegs (deriveKey k salt aad)
                (flipAt np (i' - salt.length) j) 0 (c0 :: rest) with
            | .ok out => Except.ok out.flatten
            | .error e => Except.error e) =
          Except.error StreamError.noMatchingKey
        have hnpne : flipAt np (i' - salt.length) j ≠ np :=
          flipAt_ne np (i' - salt.length) j (by omega)
        have hdecnone : decryptSegment (deriveKey key salt aad)
            (flipAt np (i' - salt.length) j) 0 rest.isEmpty c0 = none := by
          rw [hc0form, ← hdk]
          exact decryptSegment_other (Or.inr hnpne)
        rw [findKey_cons, ← hdk, hdecnone]
        rfl
    · -- flip inside the ciphertext body
      right
      have hige : hL ≤ i' + 1 := by omega
      have hi2 : i' + 1 - hL < B.length := by
        rw [hctlen2] at hi
        omega
      have hform : flipAt ct (i' + 1) j =
          mkHeader salt np ++ flipAt B (i' + 1 - hL) j := by
        rw [hct, encryptStream, ← hhL, ← hdk, ← hsegsdef, ← hBdef]
        rw [flipAt_append_right _ _ _ _ (by rw [mkHeader_length, ← hhL]; omega)]
        rw [mkHeader_length, ← hhL]
      rw [hform]
      set i2 := i' + 1 - hL with hi2def
      obtain ⟨s0, tl, hsegsE⟩ := List.exists_cons_of_ne_nil hsegne
      cases tl with
      | nil =>
        -- single-segment stream: the flip hits segment 0
        left
        have hBform : B = encryptSegment dk np 0 true s0 := by
          rw [hBdef, hsegsE]
          show (encryptSegment dk np 0 true s0 :: []).flatten = _
          simp
        have hs0len : s0.length ≤ ps - hL := by
          have hsegm2 : Segmented ps (ps - hL) [s0] := by
            rw [← hsegsE]; exact hsegm
          exact segmented_single_inv hsegm2
        have hlenB : (flipAt B i2 j).length = s0.length + 1 := by
          rw [length_flipAt, hBform]
          simp [encryptSegment]
        have hsf : splitFirst (ps + 1 - hL) (ps + 1) (flipAt B i2 j) =
            [flipAt B i2 j] := by
          rw [splitFirst, List.take_of_length_le (by rw [hlenB]; omega),
            List.drop_eq_nil_of_le (by rw [hlenB]; omega), chunks_nil]
        rw [decryptStream, parseHeader_mkHeader, ← hhL]
        show (match splitFirst (ps + 1 - hL) (ps + 1) (flipAt B i2 j) with
          | [] => Except.error StreamError.truncatedStream
          | c0 :: rest =>
            match findKey aad salt np rest.isEmpty c0 [key] with
            | none => Except.error StreamError.noMatchingKey
            | some k =>
              match decSegs (deriveKey k salt aad) np 0 (c0 :: rest) with
              | .ok out => Except.ok out.flatten
              | .error e => Except.error e) =
          Except.error StreamError.noMatchingKey
        rw [hsf]
        have hdecnone : decryptSegment dk np 0 true (flipAt B i2 j) = none := by
          rw [hBform]
          refine decryptSegment_flip dk np 0 true s0 i2 j ?_
          rw [hBform] at hi2
          exact hi2
        show (match findKey aad salt np true (flipAt B i2 j) [key] with
          | none => Except.error StreamError.noMatchingKey
          | some k =>
            match decSegs (deriveKey k salt aad) np 0 [flipAt B i2 j] with
            | .ok out => Except.ok out.flatten
            | .error e => Except.error e) =
          Except.error StreamError.noMatchingKey
        rw [findKey_cons, ← hdk, hdecnone]
        rfl
      | cons s1 t1 =>
        have hsegm2 : Segmented ps (ps - hL) (s0 :: s1 :: t1) := by
          rw [← hsegsE]; exact hsegm
        obtain ⟨hs0len, htailseg⟩ := segmented_cons_inv hsegm2
        have hBform : B = encryptSegment dk np 0 false s0 ++
            (encSegs dk np 1 (s1 :: t1)).flatten := by
          rw [hBdef, hsegsE]
          show (encryptSegment dk np 0 false s0 ::
            encSegs dk np (0 + 1) (s1 :: t1)).flatten = _
          simp
        have hheadlen : (encryptSegment dk np 0 false s0).length =
            ps + 1 - hL := by
          simp only [encryptSegment, List.length_append, List.length_cons,
            List.length_nil]
          omega
        by_cases hic : i2 < ps + 1 - hL
        · -- flip in segment 0: trial decryption fails for every candidate
          left
          have hflip : flipAt B i2 j =
              flipAt (encryptSegment dk np 0 false s0) i2 j ++
                (encSegs dk np 1 (s1 :: t1)).flatten := by
            rw [hBform]
            exact flipAt_append_left _ _ _ _ (by rw [hheadlen]; omega)
          have hsf : splitFirst (ps + 1 - hL) (ps + 1) (flipAt B i2 j) =
              flipAt (encryptSegment dk np 0 false s0) i2 j ::
                encSegs dk np 1 (s1 :: t1) := by
            rw [hflip, splitFirst,
              List.take_left' (by rw [length_flipAt, hheadlen]),
              List.drop_left' (by rw [length_flipAt, hheadlen])]
            rw [chunks_encSegs_flatten dk np ps (s1 :: t1) htailseg 1]
          rw [decryptStream, parseHeader_mkHeader, ← hhL]
          show (match splitFirst (ps + 1 - hL) (ps + 1) (flipAt B i2 j) with
            | [] => Except.error StreamError.truncatedStream
            | c0 :: rest =>
              match findKey aad salt np rest.isEmpty c0 [key] with
              | none => Except.error StreamError.noMatchingKey
              | some k =>
                match decSegs (deriveKey k salt aad) np 0 (c0 :: rest) with
                | .ok out => Except.ok out.flatten
                | .error e => Except.error e) =
            Except.error StreamError.noMatchingKey
          rw [hsf]
          have hrieF : (encSegs dk np 1 (s1 :: t1)).isEmpty = false := by
            rw [encSegs_isEmpty]
            rfl
          have hdecnone : decryptSegment dk np 0
              ((encSegs dk np 1 (s1 :: t1)).isEmpty = true : Bool)
              (flipAt (encryptSegment dk np 0 false s0) i2 j) = none := by
            rw [hrieF]
            show decryptSegment dk np 0 false _ = none
            exact decryptSegment_flip dk np 0 false s0 i2 j (by rw [hheadlen]; omega)
          show (match findKey aad salt np (encSegs dk np 1 (s1 :: t1)).isEmpty
              (flipAt (encryptSegment dk np 0 false s0) i2 j) [key] with
            | none => Except.error StreamError.noMatchingKey
            | some k =>
              match decSegs (deriveKey k salt aad) np 0
                  (flipAt (encryptSegment dk np 0 false s0) i2 j ::
                    encSegs dk np 1 (s1 :: t1)) with
              | .ok out => Except.ok out.flatten
              | .error e => Except.error e) =
            Except.error StreamError.noMatchingKey
          rw [findKey_cons, ← hdk, hrieF]
          rw [show decryptSegment dk np 0 false
              (flipAt (encryptSegment dk np 0 false s0) i2 j) = none from
            decryptSegment_flip dk np 0 false s0 i2 j (by rw [hheadlen]; omega)]
          rfl
        · -- flip in a later segment: key pins, then authentication fails
          right
          have hile2 : ps + 1 - hL ≤ i2 := by omega
          have hrestlen : i2 - (ps + 1 - hL) <
              (encSegs dk np 1 (s1 :: t1)).flatten.length := by
            have hBlen := congrArg List.length hBform
            rw [List.length_append, hheadlen] at hBlen
            omega
          have hflip : flipAt B i2 j = encryptSegment dk np 0 false s0 ++
              flipAt ((encSegs dk np 1 (s1 :: t1)).flatten)
                (i2 - (ps + 1 - hL)) j := by
            rw [hBform, flipAt_append_right _ _ _ _ (by rw [hheadlen]; omega),
              hheadlen]
          have hrne : flipAt ((encSegs dk np 1 (s1 :: t1)).flatten)
              (i2 - (ps + 1 - hL)) j ≠ [] := by
            intro hc
            have h5 := congrArg List.length hc
            rw [length_flipAt] at h5
            exact encSegs_flatten_ne_nil dk np 1 _ (List.cons_ne_nil _ _)
              (List.eq_nil_of_length_eq_zero h5)
          have hCCne : chunks (ps + 1) (flipAt
              ((encSegs dk np 1 (s1 :: t1)).flatten) (i2 - (ps + 1 - hL)) j) ≠
                [] := by
            rw [Ne, chunks_eq_nil_iff (ps + 1) (by omega)]
            exact hrne
          obtain ⟨x, xs, hx⟩ := List.exists_cons_of_ne_nil hCCne
          have hsf : splitFirst (ps + 1 - hL) (ps + 1) (flipAt B i2 j) =
              encryptSegment dk np 0 false s0 :: (x :: xs) := by
            rw [hflip, splitFirst, List.take_left' hheadlen,
              List.drop_left' hheadlen, hx]
          rw [decryptStream, parseHeader_mkHeader, ← hhL]
          show (match splitFirst (ps + 1 - hL) (ps + 1) (flipAt B i2 j) with
            | [] => Except.error StreamError.truncatedStream
            | c0 :: rest =>
              match findKey aad salt np rest.isEmpty c0 [key] with
              | none => Except.error StreamError.noMatchingKey
              | some k =>
                match decSegs (deriveKey k salt aad) np 0 (c0 :: rest) with
                | .ok out => Except.ok out.flatten
                | .error e => Except.error e) =
            Except.error StreamError.authenticationFailed
          rw [hsf]
          show (match findKey aad salt np (x :: xs).isEmpty
              (encryptSegment dk np 0 false s0) [key] with
            | none => Except.error StreamError.noMatchingKey
            | some k =>
              match decSegs (deriveKey k salt aad) np 0
                  (encryptSegment dk np 0 false s0 :: x :: xs) with
              | .ok out => Except.ok out.flatten
              | .error e => Except.error e) =
            Except.error StreamError.authenticationFailed
          have hdecsome : decryptSegment dk np 0 ((x :: xs) :
              List (List Nat)).isEmpty (encryptSegment dk np 0 false s0) =
                some s0 := by
            show decryptSegment dk np 0 false _ = _
            exact decryptSegment_encryptSegment dk np 0 false s0
          rw [findKey_cons, ← hdk, hdecsome]
          show (match decSegs dk np 0
              (encryptSegment dk np 0 false s0 :: x :: xs) with
            | .ok out => Except.ok out.flatten
            | .error e => Except.error e) =
            Except.error StreamError.authenticationFailed
          rw [decSegs, decryptSegment_encryptSegment, ← hx]
          rw [flip_decSegs dk np ps (s1 :: t1) 1 (i2 - (ps + 1 - hL)) j htailseg
            hrestlen]

/-! ### Inversion lemmas for successful decryption -/

theorem findKey_mem (aad salt np : List Nat) (b : Bool) (c0 : List Nat) :
    ∀ (keys : List Nat) (k : Nat),
      findKey aad salt np b c0 keys = some k → k ∈ keys := by
  intro keys
  induction keys with
  | nil => intro k h; exact absurd h (by simp [findKey])
  | cons k' ks ih =>
    intro k h
    rw [findKey_cons] at h
    by_cases hd : (decryptSegment (deriveKey k' salt aad) np 0 b c0).isSome = true
    · rw [if_pos hd] at h
      injection h with h'
      subst h'
      exact List.mem_cons_self _ _
    · rw [if_neg hd] at h
      exact List.mem_cons_of_mem _ (ih k h)

theorem decSegs_ok_spec (dk : Nat) (np : List Nat) :
    ∀ (cs : List (List Nat)) (n : Nat) (segs : List (List Nat)),
      decSegs dk np n cs = .ok segs →
      segs.length = cs.length ∧
      ∀ m, m < cs.length →
        decryptSegment dk np (n + m) (decide (m + 1 = cs.length))
          (cs.getD m []) = some (segs.getD m []) := by
  intro cs
  induction cs with
  | nil =>
    intro n segs h
    rw [decSegs] at h
    injection h with h'
    subst h'
    exact ⟨rfl, by intro m hm; simp at hm⟩
  | cons c rest ih =>
    intro n segs h
    cases rest with
    | nil =>
      rw [decSegs] at h
      cases hemp : c.isEmpty
      · rw [hemp] at h
        simp only [Bool.false_eq_true, if_false] at h
        cases hdec : decryptSegment dk np n true c with
        | none => rw [hdec] at h; exact absurd h (by simp)
        | some pt =>
          rw [hdec] at h
          injection h with h'
          subst h'
          refine ⟨rfl, ?_⟩
          intro m hm
          have hm0 : m = 0 := by
            simp only [List.length_cons, List.length_nil] at hm
            omega
          subst hm0
          simpa using hdec
      · rw [hemp] at h
        simp at h
    | cons c' t =>
      rw [decSegs] at h
      cases hdec : decryptSegment dk np n false c with
      | none => rw [hdec] at h; exact absurd h (by simp)
      | some pt =>
        rw [hdec] at h
        cases hrec : decSegs dk np (n + 1) (c' :: t) with
        | error e => rw [hrec] at h; exact absurd h (by simp)
        | ok pts =>
          rw [hrec] at h
          injection h with h'
          subst h'
          obtain ⟨ih1, ih2⟩ := ih (n + 1) pts hrec
          refine ⟨by simp [List.length_cons, ih1], ?_⟩
          intro m hm
          cases m with
          | zero =>
            have hflag : (decide (0 + 1 = (c :: c' :: t).length)) = false := by
              simp
            rw [hflag]
            simpa using hdec
          | succ m' =>
            have hm' : m' < (c' :: t).length := by
              simp only [List.length_cons] at hm ⊢
              omega
            have hstep := ih2 m' hm'
            rw [List.getD_cons_succ, List.getD_cons_succ]
            have e1 : n + (m' + 1) = n + 1 + m' := by omega
            have e2 : (decide (m' + 1 + 1 = (c :: c' :: t).length)) =
                (decide (m' + 1 = (c' :: t).length)) := by
              rw [decide_eq_decide]
              simp only [List.length_cons]
              omega
            rw [e1, e2]
            exact hstep

theorem decryptStream_ok_spec (keys aad : List Nat) (ss ns ps : Nat)
    (ct q : List Nat) (h : decryptStream keys aad ss ns ps ct = .ok q) :
    ∃ k hdr body c0 rest segs,
      k ∈ keys ∧
      parseHeader ss ns ct = some (hdr, body) ∧
      splitFirst (ps + 1 - headerLen ss ns) (ps + 1) body = c0 :: rest ∧
      findKey aad hdr.salt hdr.nonceP rest.isEmpty c0 keys = some k ∧
      decSegs (deriveKey k hdr.salt aad) hdr.nonceP 0 (c0 :: rest) = .ok segs ∧
      q = segs.flatten := by
  rw [decryptStream] at h
  split at h
  · exact absurd h (by simp)
  · next hdr body hparse =>
    split at h
    · exact absurd h (by simp)
    · next c0 rest hsplit =>
      split at h
      · exact absurd h (by simp)
      · next k hfind =>
        split at h
        · next segs hsegs =>
          injection h with h'
          exact ⟨k, hdr, body, c0, rest, segs,
            findKey_mem _ _ _ _ _ keys k hfind, hparse, hsplit, hfind, hsegs,
            h'.symm⟩
        · next e he => exact absurd h (by simp)

theorem raDecryptSegment_ok_inv {dk : Nat} {np : List Nat} {ps hL : Nat}
    {ct : List Nat} {n : Nat} {pt : List Nat}
    (h : raDecryptSegment dk np ps hL ct n = .ok pt) :
    decryptSegment dk np n (decide (n + 1 = numSegments ps ct.length))
      (getCtSegment ps hL ct n) = some pt := by
  rw [raDecryptSegment] at h
  split at h
  · exact absurd h (by simp)
  · split at h
    · next pt' hdec =>
      injection h with h'
      rw [hdec, h']
    · exact absurd h (by simp)

theorem raReadSegments_ok_spec (dk : Nat) (np : List Nat) (ps hL : Nat)
    (ct : List Nat) :
    ∀ (cnt n : Nat) (buf : List Nat),
      raReadSegments dk np ps hL ct n cnt = .ok buf →
      ∃ pts : List (List Nat), pts.length = cnt ∧ buf = pts.flatten ∧
        ∀ m, m < cnt →
          raDecryptSegment dk np ps hL ct (n + m) = .ok (pts.getD m []) := by
  intro cnt
  induction cnt with
  | zero =>
    intro n buf h
    rw [raReadSegments] at h
    injection h with h'
    exact ⟨[], rfl, h'.symm, by intro m hm; omega⟩
  | succ m ih =>
    intro n buf h
    rw [raReadSegments] at h
    split at h
    · exact absurd h (by simp)
    · next pt hseg =>
      split at h
      · exact absurd h (by simp)
      · next rest hrest =>
        injection h with h'
        obtain ⟨pts, hl, hb, hall⟩ := ih (n + 1) rest hrest
        refine ⟨pt :: pts, by simp [hl], by simp [← h', hb], ?_⟩
        intro m' hm'
        cases m' with
        | zero => simpa using hseg
        | succ k =>
          have e1 : n + (k + 1) = n + 1 + k := by omega
          rw [e1, List.getD_cons_succ]
          exact hall k (by omega)

theorem pRead_ok_spec (keys aad : List Nat) (ss ns ps : Nat) (ct : List Nat)
    (offset len : Nat) (r : List Nat)
    (h : pRead keys aad ss ns ps ct offset len = .ok r) :
    r = [] ∨
    ∃ k : Nat, ∃ hdr : StreamHeader, ∃ n0 cnt : Nat,
    ∃ pts : List (List Nat), ∃ d t : Nat,
      k ∈ keys ∧
      pts.length = cnt ∧
      (∀ m, m < cnt →
        decryptSegment (deriveKey k hdr.salt aad) hdr.nonceP (n0 + m)
          (decide (n0 + m + 1 = numSegments ps ct.length))
          (getCtSegment ps (headerLen ss ns) ct (n0 + m)) =
            some (pts.getD m [])) ∧
      r = (pts.flatten.drop d).take t := by
  simp only [pRead] at h
  split at h
  · exact absurd h (by simp)
  · next hdr body hparse =>
    split at h
    · exact absurd h (by simp)
    · next k hfind =>
      split at h
      · left
        injection h with h'
        exact h'.symm
      · split at h
        · left
          injection h with h'
          exact h'.symm
        · split at h
          · exact absurd h (by simp)
          · next buf hbuf =>
            injection h with h'
            right
            obtain ⟨pts, hl, hb, hall⟩ :=
              raReadSegments_ok_spec _ _ _ _ _ _ _ _ hbuf
            refine ⟨k, hdr, (streamPosition ps (headerLen ss ns) offset).1, _,
              pts,
              offset - ptSegStart ps (headerLen ss ns)
                (streamPosition ps (headerLen ss ns) offset).1,
              min len (ct.length - headerLen ss ns - numSegments ps ct.length -
                offset),
              findKey_mem _ _ _ _ _ keys k hfind, hl, ?_, ?_⟩
            · intro m hm
              exact raDecryptSegment_ok_inv (hall m hm)
            · rw [← h', hb]

/-! ### Claim theorems -/

/-- Claim C1: round-trip correctness — for every plaintext (all sizes,
including empty, sub-segment, exact-segment and multi-segment) and every
associated data, decrypting the encryption with the same associated data
yields exactly the plaintext, both on the sequential decrypting stream and
on the random-access decrypting stream (reading the whole range). -/
theorem tink_c1_roundtrip (key : Nat) (salt np aad : List Nat) (ps : Nat)
    (p : List Nat) (hps : headerLen salt.length np.length < ps) :
    decryptStream [key] aad salt.length np.length ps
        (encryptStream key salt np aad ps p) = .ok p ∧
    pRead [key] aad salt.length np.length ps
        (encryptStream key salt np aad ps p) 0 p.length = .ok p := by
  refine ⟨decryptStream_encryptStream key salt np aad ps p hps, ?_⟩
  have hra := pRead_enc key salt np aad ps p hps 0 p.length
  simpa using hra

/-- Witness for C1 at a concrete two-segment stream. -/
theorem tink_c1_roundtrip_witness :
    headerLen ([0] : List Nat).length ([1] : List Nat).length < 4 ∧
    (decryptStream [2] [] ([0] : List Nat).length ([1] : List Nat).length 4
        (encryptStream 2 [0] [1] [] 4 [5, 6]) = .ok [5, 6] ∧
      pRead [2] [] ([0] : List Nat).length ([1] : List Nat).length 4
        (encryptStream 2 [0] [1] [] 4 [5, 6]) 0 ([5, 6] : List Nat).length =
          .ok [5, 6]) :=
  ⟨by decide, tink_c1_roundtrip 2 [0] [1] [] 4 [5, 6] (by decide)⟩

/-- Claim C2: random-access/sequential equivalence — for every valid offset
and length within the plaintext length, the bytes returned by the
random-access read equal the corresponding slice of the sequentially
decrypted plaintext. -/
theorem tink_c2_ra_seq_equiv (key : Nat) (salt np aad : List Nat) (ps : Nat)
    (p : List Nat) (hps : headerLen salt.length np.length < ps) :
    decryptStream [key] aad salt.length np.length ps
        (encryptStream key salt np aad ps p) = .ok p ∧
    ∀ offset len, offset + len ≤ p.length →
      pRead [key] aad salt.length np.length ps
          (encryptStream key salt np aad ps p) offset len =
        .ok ((p.drop offset).take len) := by
  refine ⟨decryptStream_encryptStream key salt np aad ps p hps, ?_⟩
  intro offset len hle
  have hra := pRead_enc key salt np aad ps p hps offset len
  have hmin : min len (p.length - offset) = len := by omega
  rwa [hmin] at hra

/-- Witness for C2 at a concrete three-segment stream. -/
theorem tink_c2_ra_seq_equiv_witness :
    headerLen ([0] : List Nat).length ([1] : List Nat).length < 4 ∧
    (decryptStream [2] [] ([0] : List Nat).length ([1] : List Nat).length 4
        (encryptStream 2 [0] [1] [] 4 [5, 6, 7, 8, 9]) = .ok [5, 6, 7, 8, 9] ∧
      ∀ offset len, offset + len ≤ ([5, 6, 7, 8, 9] : List Nat).length →
        pRead [2] [] ([0] : List Nat).length ([1] : List Nat).length 4
            (encryptStream 2 [0] [1] [] 4 [5, 6, 7, 8, 9]) offset len =
          .ok ((([5, 6, 7, 8, 9] : List Nat).drop offset).take len)) :=
  ⟨by decide, tink_c2_ra_seq_equiv 2 [0] [1] [] 4 [5, 6, 7, 8, 9] (by decide)⟩

/-- Claim C3: no unverified plaintext is ever released — every successful
result of either decrypting stream is assembled exclusively from segments
whose authentication tag verified (`decryptSegment` returned `some`), and
the random-access result is a contiguous slice of such verified segments. -/
theorem tink_c3_verified_release :
    (∀ (keys aad : List Nat) (ss ns ps : Nat) (ct q : List Nat),
      decryptStream keys aad ss ns ps ct = .ok q →
      ∃ k : Nat, ∃ hdr : StreamHeader, ∃ body c0 : List Nat,
      ∃ rest segs : List (List Nat),
        k ∈ keys ∧
        parseHeader ss ns ct = some (hdr, body) ∧
        splitFirst (ps + 1 - headerLen ss ns) (ps + 1) body = c0 :: rest ∧
        q = segs.flatten ∧
        segs.length = (c0 :: rest).length ∧
        ∀ m, m < (c0 :: rest).length →
          decryptSegment (deriveKey k hdr.salt aad) hdr.nonceP m
            (decide (m + 1 = (c0 :: rest).length)) ((c0 :: rest).getD m []) =
              some (segs.getD m [])) ∧
    (∀ (keys aad : List Nat) (ss ns ps : Nat) (ct : List Nat)
        (offset len : Nat) (r : List Nat),
      pRead keys aad ss ns ps ct offset len = .ok r →
      r = [] ∨
      ∃ k : Nat, ∃ hdr : StreamHeader, ∃ n0 cnt : Nat,
      ∃ pts : List (List Nat), ∃ d t : Nat,
        k ∈ keys ∧
        pts.length = cnt ∧
        (∀ m, m < cnt →
          decryptSegment (deriveKey k hdr.salt aad) hdr.nonceP (n0 + m)
            (decide (n0 + m + 1 = numSegments ps ct.length))
            (getCtSegment ps (headerLen ss ns) ct (n0 + m)) =
              some (pts.getD m [])) ∧
        r = (pts.flatten.drop d).take t) := by
  constructor
  · intro keys aad ss ns ps ct q h
    obtain ⟨k, hdr, body, c0, rest, segs, hmem, hparse, hsplit, hfind, hsegs,
      hq⟩ := decryptStream_ok_spec keys aad ss ns ps ct q h
    obtain ⟨hlen, hall⟩ := decSegs_ok_spec _ _ _ _ _ hsegs
    refine ⟨k, hdr, body, c0, rest, segs, hmem, hparse, hsplit, hq, hlen, ?_⟩
    intro m hm
    simpa using hall m hm
  · intro keys aad ss ns ps ct offset len r h
    exact pRead_ok_spec keys aad ss ns ps ct offset len r h

/-- Witness for C3 at a concrete stream for both conjuncts. -/
theorem tink_c3_verified_release_witness :
    decryptStream [2] [] 1 1 4 (encryptStream 2 [0] [1] [] 4 [5, 6]) =
        .ok [5, 6] ∧
    (∃ k : Nat, ∃ hdr : StreamHeader, ∃ body c0 : List Nat,
      ∃ rest segs : List (List Nat),
        k ∈ ([2] : List Nat) ∧
        parseHeader 1 1 (encryptStream 2 [0] [1] [] 4 [5, 6]) =
          some (hdr, body) ∧
        splitFirst (4 + 1 - headerLen 1 1) (4 + 1) body = c0 :: rest ∧
        ([5, 6] : List Nat) = segs.flatten ∧
        segs.length = (c0 :: rest).length ∧
        ∀ m, m < (c0 :: rest).length →
          decryptSegment (deriveKey k hdr.salt []) hdr.nonceP m
            (decide (m + 1 = (c0 :: rest).length)) ((c0 :: rest).getD m []) =
              some (segs.getD m [])) :=
  ⟨by decide,
   tink_c3_verified_release.1 [2] [] 1 1 4
     (encryptStream 2 [0] [1] [] 4 [5, 6]) [5, 6] (by decide)⟩

/-- Claim C4: key matching and pinning — candidate keys are tried in
insertion order against the first segment; the first success is pinned and
the whole stream is decrypted with that key alone; if no candidate matches,
the stream fails with `NoMatchingKey`. -/
theorem tink_c4_key_pinning (keys aad : List Nat) (ss ns ps : Nat)
    (ct : List Nat) (hdr : StreamHeader) (body c0 : List Nat)
    (rest : List (List Nat))
    (hparse : parseHeader ss ns ct = some (hdr, body))
    (hsplit : splitFirst (ps + 1 - headerLen ss ns) (ps + 1) body =
      c0 :: rest) :
    (∀ k ks, (decryptSegment (deriveKey k hdr.salt aad) hdr.nonceP 0
        rest.isEmpty c0).isSome = true →
      findKey aad hdr.salt hdr.nonceP rest.isEmpty c0 (k :: ks) = some k) ∧
    (∀ k ks, (decryptSegment (deriveKey k hdr.salt aad) hdr.nonceP 0
        rest.isEmpty c0).isSome = false →
      findKey aad hdr.salt hdr.nonceP rest.isEmpty c0 (k :: ks) =
        findKey aad hdr.salt hdr.nonceP rest.isEmpty c0 ks) ∧
    (findKey aad hdr.salt hdr.nonceP rest.isEmpty c0 keys = none →
      decryptStream keys aad ss ns ps ct = .error .noMatchingKey) ∧
    (∀ k, findKey aad hdr.salt hdr.nonceP rest.isEmpty c0 keys = some k →
      decryptStream keys aad ss ns ps ct =
        match decSegs (deriveKey k hdr.salt aad) hdr.nonceP 0 (c0 :: rest) with
        | .ok segs => .ok segs.flatten
        | .error e => .error e) := by
  have hds : decryptStream keys aad ss ns ps ct =
      match findKey aad hdr.salt hdr.nonceP rest.isEmpty c0 keys with
      | none => .error .noMatchingKey
      | some k =>
        match decSegs (deriveKey k hdr.salt aad) hdr.nonceP 0 (c0 :: rest) with
        | .ok segs => .ok segs.flatten
        | .error e => .error e := by
    rw [decryptStream, hparse]
    show (match splitFirst (ps + 1 - headerLen ss ns) (ps + 1) body with
      | [] => Except.error StreamError.truncatedStream
      | c0' :: rest' =>
        match findKey aad hdr.salt hdr.nonceP rest'.isEmpty c0' keys with
        | none => Except.error StreamError.noMatchingKey
        | some k =>
          match decSegs (deriveKey k hdr.salt aad) hdr.nonceP 0
              (c0' :: rest') with
          | .ok out => Except.ok out.flatten
          | .error e => Except.error e) = _
    rw [hsplit]
  refine ⟨?_, ?_, ?_, ?_⟩
  · intro k ks hsome
    rw [findKey_cons, if_pos hsome]
  · intro k ks hnone
    rw [findKey_cons, if_neg (by rw [hnone]; exact Bool.false_ne_true)]
  · intro hnone
    rw [hds, hnone]
  · intro k hk
    rw [hds, hk]

/-- Witness for C4: with a candidate set lacking the true key, decryption
fails with `NoMatchingKey` on a concrete stream. -/
theorem tink_c4_key_pinning_witness :
    parseHeader 1 1 (encryptStream 2 [0] [1] [] 4 [5, 6]) =
        some (⟨[0], [1]⟩, (encryptStream 2 [0] [1] [] 4 [5, 6]).drop 3) ∧
    splitFirst (4 + 1 - headerLen 1 1) (4 + 1)
        ((encryptStream 2 [0] [1] [] 4 [5, 6]).drop 3) =
      ((encryptStream 2 [0] [1] [] 4 [5, 6]).drop 3).take 2 ::
        chunks 5 (((encryptStream 2 [0] [1] [] 4 [5, 6]).drop 3).drop 2) ∧
    decryptStream [7] [] 1 1 4 (encryptStream 2 [0] [1] [] 4 [5, 6]) =
      .error .noMatchingKey :=
  ⟨by decide, rfl,
   (tink_c4_key_pinning [7] [] 1 1 4 (encryptStream 2 [0] [1] [] 4 [5, 6])
       ⟨[0], [1]⟩ ((encryptStream 2 [0] [1] [] 4 [5, 6]).drop 3)
       (((encryptStream 2 [0] [1] [] 4 [5, 6]).drop 3).take 2)
       (chunks 5 (((encryptStream 2 [0] [1] [] 4 [5, 6]).drop 3).drop 2))
       (by decide) rfl).2.2.1 (by decide)⟩

/-- Counterexample to C5 as stated: flipping bit 0 of the first ciphertext
segment byte of a concrete valid stream makes decryption fail with
`NoMatchingKey` — a failure, but neither `AuthenticationFailed` nor
`MalformedHeader` as the claim asserts. -/
theorem tink_c5_counterexample :
    decryptStream [2] [] 1 1 4
        (flipAt (encryptStream 2 [0] [1] [] 4 [5, 6]) 3 0) =
      .error .noMatchingKey ∧
    (Except.error StreamError.noMatchingKey :
        Except StreamError (List Nat)) ≠ .error .authenticationFailed ∧
    (Except.error StreamError.noMatchingKey :
        Except StreamError (List Nat)) ≠ .error .malformedHeader := by
  refine ⟨by decide, by decide, by decide⟩

/-- Claim C5 (amended): flipping any single bit of a valid ciphertext —
header or any segment — makes decryption fail with `MalformedHeader`,
`NoMatchingKey` or `AuthenticationFailed`; decryption never returns any
plaintext as success for a tampered stream. -/
theorem tink_c5_tamper (key : Nat) (salt np aad : List Nat) (ps : Nat)
    (p : List Nat) (i j : Nat) (hps : headerLen salt.length np.length < ps)
    (hi : i < (encryptStream key salt np aad ps p).length) :
    (decryptStream [key] aad salt.length np.length ps
        (flipAt (encryptStream key salt np aad ps p) i j) =
          .error .malformedHeader ∨
      decryptStream [key] aad salt.length np.length ps
        (flipAt (encryptStream key salt np aad ps p) i j) =
          .error .noMatchingKey ∨
      decryptStream [key] aad salt.length np.length ps
        (flipAt (encryptStream key salt np aad ps p) i j) =
          .error .authenticationFailed) ∧
    ∀ q, decryptStream [key] aad salt.length np.length ps
        (flipAt (encryptStream key salt np aad ps p) i j) ≠ .ok q := by
  have hm := decryptStream_flip_master key salt np aad ps p hps i j hi
  refine ⟨hm, ?_⟩
  intro q hq
  rcases hm with hcase | hcase | hcase <;> rw [hq] at hcase <;>
    exact absurd hcase (by simp)

/-- Witness for the amended C5 at a concrete flip inside the first segment. -/
theorem tink_c5_tamper_witness :
    headerLen ([0] : List Nat).length ([1] : List Nat).length < 4 ∧
    3 < (encryptStream 2 [0] [1] [] 4 [5, 6]).length ∧
    ((decryptStream [2] [] ([0] : List Nat).length ([1] : List Nat).length 4
        (flipAt (encryptStream 2 [0] [1] [] 4 [5, 6]) 3 0) =
          .error .malformedHeader ∨
      decryptStream [2] [] ([0] : List Nat).length ([1] : List Nat).length 4
        (flipAt (encryptStream 2 [0] [1] [] 4 [5, 6]) 3 0) =
          .error .noMatchingKey ∨
      decryptStream [2] [] ([0] : List Nat).length ([1] : List Nat).length 4
        (flipAt (encryptStream 2 [0] [1] [] 4 [5, 6]) 3 0) =
          .error .authenticationFailed) ∧
    ∀ q, decryptStream [2] [] ([0] : List Nat).length ([1] : List Nat).length 4
        (flipAt (encryptStream 2 [0] [1] [] 4 [5, 6]) 3 0) ≠ .ok q) :=
  ⟨by decide, by decide,
   tink_c5_tamper 2 [0] [1] [] 4 [5, 6] 3 0 (by decide) (by decide)⟩

/-- Claim C6: terminal failure determinism — once a read on a sequential
stream instance reports a decrypt-path error, the instance is in the failed
state and every subsequent read deterministically reports the same error,
never producing plaintext again; a stream opened over a ciphertext whose
decryption fails reports that same error class on every read. -/
theorem tink_c6_terminal_failure :
    (∀ (st : SeqState) (n : Nat) (e : StreamError),
      (readSeq st n).1 = .error e →
      (readSeq st n).2 = SeqState.failed e ∧
      ∀ m, readSeq (SeqState.failed e) m = (.error e, .failed e)) ∧
    (∀ (keys aad : List Nat) (ss ns ps : Nat) (ct : List Nat) (e : StreamError),
      decryptStream keys aad ss ns ps ct = .error e →
      ∀ m, readSeq (initSeqStream keys aad ss ns ps ct) m =
        (.error e, .failed e)) := by
  constructor
  · intro st n e h
    cases st with
    | producing rest => exact absurd h (by simp [readSeq])
    | failed e' =>
      have he : e' = e := by simpa [readSeq] using h
      subst he
      exact ⟨rfl, fun m => rfl⟩
  · intro keys aad ss ns ps ct e h m
    rw [initSeqStream, h]
    rfl

/-- Witness for C6 at a concrete failed stream state. -/
theorem tink_c6_terminal_failure_witness :
    (readSeq (SeqState.failed StreamError.authenticationFailed) 5).1 =
        .error .authenticationFailed ∧
    ((readSeq (SeqState.failed StreamError.authenticationFailed) 5).2 =
        SeqState.failed .authenticationFailed ∧
      ∀ m, readSeq (SeqState.failed StreamError.authenticationFailed) m =
        (.error .authenticationFailed, .failed .authenticationFailed)) :=
  ⟨by decide,
   tink_c6_terminal_failure.1 (SeqState.failed StreamError.authenticationFailed)
     5 StreamError.authenticationFailed (by decide)⟩

/-- Claim C7: end-of-stream boundary behaviour — a random-access read at
offset equal to the plaintext length returns empty, not an error; a read
past the end returns empty; any read is reported as success with the
correctly truncated short result, never as an error. -/
theorem tink_c7_boundary (key : Nat) (salt np aad : List Nat) (ps : Nat)
    (p : List Nat) (hps : headerLen salt.length np.length < ps) :
    (∀ len, pRead [key] aad salt.length np.length ps
        (encryptStream key salt np aad ps p) p.length len = .ok []) ∧
    (∀ offset len, p.length ≤ offset →
      pRead [key] aad salt.length np.length ps
        (encryptStream key salt np aad ps p) offset len = .ok []) ∧
    (∀ offset len, pRead [key] aad salt.length np.length ps
        (encryptStream key salt np aad ps p) offset len =
      .ok ((p.drop offset).take (min len (p.length - offset)))) := by
  refine ⟨?_, ?_, fun offset len => pRead_enc key salt np aad ps p hps offset len⟩
  · intro len
    have hra := pRead_enc key salt np aad ps p hps p.length len
    simpa using hra
  · intro offset len hle
    have hra := pRead_enc key salt np aad ps p hps offset len
    have hz : p.length - offset = 0 := by omega
    rw [hz, Nat.min_zero, List.take_zero] at hra
    exact hra

/-- Witness for C7 at a concrete stream. -/
theorem tink_c7_boundary_witness :
    headerLen ([0] : List Nat).length ([1] : List Nat).length < 4 ∧
    ((∀ len, pRead [2] [] ([0] : List Nat).length ([1] : List Nat).length 4
        (encryptStream 2 [0] [1] [] 4 [5, 6]) ([5, 6] : List Nat).length len =
          .ok []) ∧
      (∀ offset len, ([5, 6] : List Nat).length ≤ offset →
        pRead [2] [] ([0] : List Nat).length ([1] : List Nat).length 4
          (encryptStream 2 [0] [1] [] 4 [5, 6]) offset len = .ok []) ∧
      (∀ offset len, pRead [2] [] ([0] : List Nat).length
          ([1] : List Nat).length 4
          (encryptStream 2 [0] [1] [] 4 [5, 6]) offset len =
        .ok ((([5, 6] : List Nat).drop offset).take
          (min len (([5, 6] : List Nat).length - offset))))) :=
  ⟨by decide, tink_c7_boundary 2 [0] [1] [] 4 [5, 6] (by decide)⟩

/-- Claim C8: stream position arithmetic — the stream position computed from
an absolute plaintext offset is a deterministic function of the offset and
the fixed segment size satisfying
`segment_number * plaintext_segment_size + offset_within_segment =
absolute_offset + header_length`, the shift by the header length being
exactly the first segment's reduction, with the offset within the segment
always below the segment size. -/
theorem tink_c8_stream_position (ps hL offset : Nat) (hps : 0 < ps) :
    (streamPosition ps hL offset).1 * ps + (streamPosition ps hL offset).2 =
      offset + hL ∧
    (streamPosition ps hL offset).2 < ps := by
  constructor
  · show (offset + hL) / ps * ps + (offset + hL) % ps = offset + hL
    have hdm := Nat.div_add_mod (offset + hL) ps
    have hmc : (offset + hL) / ps * ps = ps * ((offset + hL) / ps) :=
      Nat.mul_comm _ _
    omega
  · exact Nat.mod_lt _ hps

/-- Witness for C8 at a concrete offset. -/
theorem tink_c8_stream_position_witness :
    0 < 4 ∧
    ((streamPosition 4 3 6).1 * 4 + (streamPosition 4 3 6).2 = 6 + 3 ∧
      (streamPosition 4 3 6).2 < 4) :=
  ⟨by decide, tink_c8_stream_position 4 3 6 (by decide)⟩

/-- Claim C10: the `EncryptThenDecrypt` helper returns OK exactly when
encryption succeeds, decryption of the ciphertext succeeds and the result
equals the message; a failing operation's status is returned unchanged; a
successful decryption that differs from the message yields the INTERNAL
"Message/Decryption mismatch" status. -/
theorem tink_c10_encrypt_then_decrypt (enc dec : Aead) (message aad : List Nat)
    (hE : ∀ s, enc.encrypt message aad = .error s → s ≠ .okStatus)
    (hD : ∀ ct s, dec.decrypt ct aad = .error s → s ≠ .okStatus) :
    (EncryptThenDecrypt enc dec message aad = .okStatus ↔
      ∃ ct, enc.encrypt message aad = .ok ct ∧ dec.decrypt ct aad = .ok message) ∧
    (∀ s, enc.encrypt message aad = .error s →
      EncryptThenDecrypt enc dec message aad = s) ∧
    (∀ ct s, enc.encrypt message aad = .ok ct → dec.decrypt ct aad = .error s →
      EncryptThenDecrypt enc dec message aad = s) ∧
    (∀ ct pt, enc.encrypt message aad = .ok ct → dec.decrypt ct aad = .ok pt →
      pt ≠ message →
      EncryptThenDecrypt enc dec message aad =
        .errStatus .internal "Message/Decryption mismatch") := by
  refine ⟨?_, ?_, ?_, ?_⟩
  · constructor
    · intro h
      cases henc : enc.encrypt message aad with
      | error s =>
        simp only [EncryptThenDecrypt, henc] at h
        exact absurd h (hE s henc)
      | ok ct =>
        cases hdec : dec.decrypt ct aad with
        | error s =>
          simp only [EncryptThenDecrypt, henc, hdec] at h
          exact absurd h (hD ct s hdec)
        | ok pt =>
          by_cases hpm : pt = message
          · subst hpm
            exact ⟨ct, rfl, hdec⟩
          · simp only [EncryptThenDecrypt, henc, hdec, if_neg hpm] at h
            exact absurd h (by simp)
    · rintro ⟨ct, h1, h2⟩
      simp [EncryptThenDecrypt, h1, h2]
  · intro s h
    simp [EncryptThenDecrypt, h]
  · intro ct s h1 h2
    simp [EncryptThenDecrypt, h1, h2]
  · intro ct pt h1 h2 hne
    simp [EncryptThenDecrypt, h1, h2, hne]

/-- Witness for C10 with the identity AEAD: the helper returns OK. -/
theorem tink_c10_encrypt_then_decrypt_witness :
    (∀ s, idAead.encrypt [1, 2] [] = .error s → s ≠ .okStatus) ∧
    EncryptThenDecrypt idAead idAead [1, 2] [] = .okStatus :=
  ⟨by intro s h; simp [idAead] at h,
   (tink_c10_encrypt_then_decrypt idAead idAead [1, 2] []
       (by intro s h; simp [idAead] at h)
       (by intro ct s h; simp [idAead] at h)).1.mpr ⟨[1, 2], rfl, rfl⟩⟩

end TinkStream
